import Mathlib

/-!
# Verification development for `gis.py` (`simplify_shps` and friends)

This file gives a shallow embedding of the sliver-simplification code of the
repository (`src/gis.py`) and settles the frozen claims about it.

Modelling conventions, mirroring the architecture of the spec (the geometry
kernel is an external collaborator, see spec section 1/2):

* The external geometry/raster engine (shapely/GEOS, rasterstats) is abstracted
  by the `Engine` structure: an abstract geometry type `G`, an abstract
  boundary-ring type `R`, and the primitive operations the python code calls
  (`unary_union` via `geUnion`, multipart explosion via `geParts`,
  `touches`/`intersects`, areas in the native CRS (`areaO`) and after
  `to_crs(epsg=31467)` (`areaP`), polygon boundaries as lists of rings, and
  `shapely.ops.shared_paths(...).length` via `shLen`).  The optional
  `comp_raster` is abstracted as the zonal-mean function `G → Int` it induces.
* Areas, shared-border lengths and zonal means are modelled as `Int`: the
  code only compares these quantities and takes exact differences of them, so
  any linearly ordered subring of the reals gives the same behaviour
  (bounding-box coordinates of the partitioner, which ARE halved, use `Rat`).
  Attribute values of the category/keep columns are an abstract type `V`
  with decidable equality.  A feature row carries the tuple of its category
  column values (`cats`), the tuple of its keep column values (`keeps`) and the
  transient `changed` flag; `keep_cols=None` corresponds to `keeps = []`
  (it makes both the keep filter and the extra dissolve-key components vacuous,
  exactly as in the code).  The `fillna("NAN")` round trip, the dtype
  restoration (lines 310-318) and the unconstrained extra columns are value
  representation details outside every claim and are not modelled.
* Pandas index labels after `reset_index`/`explode(ignore_index=True)` are the
  row positions `0..n-1`; `List.enum` produces exactly these labels.
* The `while` loop is modelled by fuel recursion (`loopAux`); `simplify_shps`
  runs it with fuel `length + 2`, which theorem `simplify_shps_pass_ceiling`
  proves is enough fuel for the loop to reach its exit condition.
* Python exceptions (`to_crs` on a CRS-less frame, `shared_paths` on a
  multi-part argument, `idxmin`/`idxmax` on empty columns) are modelled with
  `Except String`.
-/

namespace Gis

/-- One row of the working GeoDataFrame: a geometry, the values of the
category columns (`cat_col`), the values of the keep columns (`keep_cols`,
`[]` when `keep_cols is None`) and the transient `changed` flag. -/
structure Feat (G V : Type) where
  geom : G
  cats : List V
  keeps : List V
  changed : Bool
deriving DecidableEq

/-- The external geometry engine (shapely / GEOS / rasterstats adapter).
`G` is the geometry type, `R` the type of a single boundary ring
(a `LineString`). -/
structure Engine (G R : Type) where
  /-- `shapely.unary_union` of a list of geometries (used by `dissolve`). -/
  geUnion : List G → G
  /-- the simple-polygon parts of a geometry (used by `explode`);
  a single-part geometry `g` has `geParts g = [g]`. -/
  geParts : G → List G
  /-- `a.touches b` -/
  geTouches : G → G → Bool
  /-- `a.intersects b` -/
  geIntersects : G → G → Bool
  /-- `.area` in the native CRS of the frame -/
  areaO : G → Int
  /-- `.to_crs(epsg=31467).area` -/
  areaP : G → Int
  /-- `.boundary`, as its list of rings: one element for a hole-free polygon
  (a `LineString`), several for a polygon with holes (a `MultiLineString`). -/
  boundary : G → List R
  /-- `ring.intersects(geom)` -/
  ringIntersects : R → G → Bool
  /-- `ring.touches(geom)` -/
  ringTouches : R → G → Bool
  /-- `shared_paths(r1, r2).length` -/
  shLen : R → R → Int

/-- A GeoDataFrame: an optional CRS and the list of feature rows
(row positions are the pandas labels). -/
structure GDF (G V : Type) where
  crs : Option Nat
  feats : List (Feat G V)

variable {G R V : Type}

/-- `explode(ignore_index=True, index_parts=False)`: replace every row by one
row per constituent simple polygon, duplicating the attribute values. -/
def explodeGdf (E : Engine G R) (l : List (Feat G V)) : List (Feat G V) :=
  (l.map (fun f => (E.geParts f.geom).map (fun g => { f with geom := g }))).flatten

/-- The dissolve key of a row: the tuple of `cat_col` values followed by the
tuple of `keep_cols` values (`dis_cols`). -/
def keyOf (f : Feat G V) : List V × List V := (f.cats, f.keeps)

/-- The dissolved row of one key group: geometry `unary_union` of the group,
key columns from the key, other columns (here: `changed`) aggregated with the
default `first`. -/
def mkDis (E : Engine G R) (k : List V × List V) (grp : List (Feat G V)) : Feat G V :=
  { geom := E.geUnion (grp.map (·.geom)),
    cats := k.1,
    keeps := k.2,
    changed := ((grp.head?).map (·.changed)).getD false }

/-- `dissolve(by=dis_cols, sort=False, as_index=False)`: group rows by the
dissolve key, in order of first appearance of each key, one output row per
group (fuel recursion; `dissolveBy` supplies sufficient fuel). -/
def dissolveAux (E : Engine G R) [DecidableEq V] :
    Nat → List (Feat G V) → List (Feat G V)
  | 0, _ => []
  | _, [] => []
  | n + 1, f :: rest =>
      mkDis E (keyOf f) (f :: rest.filter (fun x => keyOf x = keyOf f)) ::
        dissolveAux E n (rest.filter (fun x => decide (keyOf x ≠ keyOf f)))

/-- `dissolve(by=dis_cols, sort=False, as_index=False)`. -/
def dissolveBy (E : Engine G R) [DecidableEq V] (l : List (Feat G V)) : List (Feat G V) :=
  dissolveAux E l.length l

/-- Line 218/306: the undersized rows
`gdf_out[gdf_out.to_crs(epsg=31467).area < area_lim]`, with their labels,
in frame order. -/
def smallList (E : Engine G R) (lim : Int) (l : List (Feat G V)) : List (Nat × Feat G V) :=
  l.enum.filter (fun p => E.areaP p.2.geom < lim)

/-- The comparison key of line 219: the area in the native CRS
(`mask_shps_small.area`, not the reprojected area). -/
def areaLe (E : Engine G R) (a b : Nat × Feat G V) : Prop :=
  E.areaO a.2.geom ≤ E.areaO b.2.geom

instance (E : Engine G R) : DecidableRel (α := Nat × Feat G V) (areaLe (V := V) E) :=
  fun a b => inferInstanceAs (Decidable (_ ≤ _))

instance (E : Engine G R) : IsTotal (Nat × Feat G V) (areaLe (V := V) E) :=
  ⟨fun a b => le_total _ _⟩

instance (E : Engine G R) : IsTrans (Nat × Feat G V) (areaLe (V := V) E) :=
  ⟨fun _ _ _ hab hbc => le_trans hab hbc⟩

/-- Lines 218-219 / 306-308: the undersized rows, sorted smallest native-CRS
area first (`mask_shps_small.area.sort_values()`; the model uses a stable
sort, which is one deterministic realisation of `sort_values`; on rows with
equal areas pandas' default unstable quicksort may order ties differently but
is likewise a deterministic function of its input). -/
def smallSorted (E : Engine G R) (lim : Int) (l : List (Feat G V)) :
    List (Nat × Feat G V) :=
  (smallList E lim l).insertionSort (areaLe E)

/-- Lines 231-237: the candidate set of a sliver row: rows of the current
frame that touch or intersect it, with at least one differing category value,
and with all keep values equal. -/
def candFilter (E : Engine G R) [DecidableEq V] (cur : List (Feat G V)) (row : Feat G V) :
    List (Nat × Feat G V) :=
  ((cur.enum.filter
      (fun p => E.geTouches p.2.geom row.geom || E.geIntersects p.2.geom row.geom)).filter
    (fun p => decide (p.2.cats ≠ row.cats))).filter
    (fun p => p.2.keeps = row.keeps)

/-- `idxmin` on a labelled column: the label of the first occurrence of the
minimum value (`none` on an empty column, where pandas raises). -/
def argminFst : List (Nat × Int) → Option (Nat × Int)
  | [] => none
  | p :: rest =>
      match argminFst rest with
      | none => some p
      | some q => if q.2 < p.2 then some q else some p

/-- `idxmax` on a labelled column: the label of the first occurrence of the
maximum value (`none` on an empty column, where pandas raises). -/
def argmaxFst : List (Nat × Int) → Option (Nat × Int)
  | [] => none
  | p :: rest =>
      match argmaxFst rest with
      | none => some p
      | some q => if p.2 < q.2 then some q else some p

/-- A boundary object as the python code sees it: a `LineString` (one ring) or
a `MultiLineString` (zero or several rings). -/
inductive LineObj (R : Type) where
  | single (r : R)
  | multi (rs : List R)
deriving DecidableEq

/-- `geom.boundary` as a `LineObj`: one ring gives a `LineString`, any other
number gives a `MultiLineString`. -/
def boundObj (E : Engine G R) (g : G) : LineObj R :=
  match E.boundary g with
  | [r] => .single r
  | rs => .multi rs

/-- Lines 277-280: if the neighbour boundary is a `MultiLineString`, the
`for nb_bound_i in nb_bound.geoms` loop leaves `nb_bound` at the LAST ring
that intersects or touches the sliver geometry (the loop keeps overwriting
`nb_bound`), and leaves the `MultiLineString` untouched when no ring
qualifies. -/
def nbPick (E : Engine G R) (rowGeom : G) : LineObj R → LineObj R
  | .single r => .single r
  | .multi rs =>
      match (rs.filter (fun r => E.ringIntersects r rowGeom || E.ringTouches r rowGeom)).getLast? with
      | some r => .single r
      | none => .multi rs

/-- Lines 283-288: the shared border length of the sliver boundary with the
(already picked) neighbour boundary: `max` over the sliver's rings when its
boundary is a `MultiLineString`; `shared_paths` raises when its second
argument is still a `MultiLineString`. -/
def sharedLenObj (E : Engine G R) (geomB nb : LineObj R) : Except String Int :=
  match nb with
  | .multi _ => .error "shared_paths expects LineString arguments"
  | .single r =>
      match geomB with
      | .single g => .ok (E.shLen g r)
      | .multi rs =>
          match rs.map (fun g => E.shLen g r) with
          | [] => .error "max of an empty sequence"
          | x :: xs => .ok (xs.foldl max x)

/-- Lines 272-288: the `shared border length` column over the candidate set
(computed candidate by candidate; the first failing candidate raises). -/
def scoreList (E : Engine G R) (rowGeom : G) (t : List (Nat × Feat G V)) :
    Except String (List (Nat × Int)) :=
  t.mapM (fun p =>
    (sharedLenObj E (boundObj E rowGeom) (nbPick E rowGeom (boundObj E p.2.geom))).map
      (fun v => (p.1, v)))

/-- Lines 272-290: the biggest-border fallback: label of the candidate with the
maximal `shared border length` (first label on ties, as `idxmax`). -/
def borderSel (E : Engine G R) (rowGeom : G) (t : List (Nat × Feat G V)) :
    Except String Nat :=
  match scoreList E rowGeom t with
  | .error e => .error e
  | .ok scores =>
      match argmaxFst scores with
      | none => .error "attempt to get argmax of an empty sequence"
      | some q => .ok q.1

/-- Line 263: the `raster_diff` column: absolute difference of each
candidate's zonal mean to the sliver's zonal mean. -/
def rasterDiffs (mean : G → Int) (rowGeom : G) (t : List (Nat × Feat G V)) :
    List (Nat × Int) :=
  t.map (fun p => (p.1, |mean p.2.geom - mean rowGeom|))

/-- Lines 249-290: pick the replacement label (`repl_id`) from a candidate set:
single candidate short-circuit, then the raster policy when a raster is
configured, then the biggest-border policy.

In the raster policy the tie test of line 267,
`touch.loc[repl_id, "raster_diff"] in touch.drop(repl_id)["raster_diff"]`,
uses python `in` on a pandas Series, which tests membership in the INDEX of
the series, not among its values: the code falls through to the border policy
iff the minimal difference VALUE equals one of the other candidates' integer
LABELS. -/
def selectTouch (E : Engine G R) [DecidableEq V] (raster : Option (G → Int))
    (rowGeom : G) (t : List (Nat × Feat G V)) : Except String Nat :=
  match t with
  | [p] => .ok p.1
  | _ =>
      match raster with
      | some mean =>
          let diffs := rasterDiffs mean rowGeom t
          match argminFst diffs with
          | none => .error "attempt to get argmin of an empty sequence"
          | some q =>
              if (diffs.filter (fun d => d.1 ≠ q.1)).any (fun d => ((d.1 : Int) = q.2 : Bool)) then
                borderSel E rowGeom
                  (t.filter (fun p => |mean p.2.geom - mean rowGeom| = q.2))
              else .ok q.1
      | none => borderSel E rowGeom t

/-- Lines 292-295: write the chosen candidate's category values into row `i`
of the frame and set its `changed` flag. -/
def applySel (E : Engine G R) [DecidableEq V] (raster : Option (G → Int))
    (cur : List (Feat G V)) (i : Nat) (row : Feat G V) (t : List (Nat × Feat G V)) :
    Except String (List (Feat G V)) :=
  match selectTouch E raster row.geom t with
  | .error e => .error e
  | .ok j =>
      match t.find? (fun q => q.1 = j) with
      | none => .error "label not found"
      | some q =>
          match cur[i]? with
          | some f => .ok (cur.set i { f with cats := q.2.cats, changed := true })
          | none => .ok cur

/-- Lines 229-295: process one undersized row `(i, row)` of the pass snapshot
against the current frame: build the candidate set; if any candidate changed
this pass, re-dissolve and re-explode the candidate set first (its labels
become `0..n-1`); else if the candidate set is empty, leave the row unchanged;
otherwise select a candidate and rewrite the row's category values. -/
def processOne (E : Engine G R) [DecidableEq V] (raster : Option (G → Int))
    (cur : List (Feat G V)) (p : Nat × Feat G V) : Except String (List (Feat G V)) :=
  let row := p.2
  let touch := candFilter E cur row
  if touch.any (fun q => q.2.changed) then
    applySel E raster cur p.1 row ((explodeGdf E (dissolveBy E (touch.map (·.2)))).enum)
  else if touch.isEmpty then .ok cur
  else applySel E raster cur p.1 row touch

/-- The `for i, row in mask_shps_small.iterrows()` loop of one pass. -/
def processSmall (E : Engine G R) [DecidableEq V] (raster : Option (G → Int)) :
    List (Feat G V) → List (Nat × Feat G V) → Except String (List (Feat G V))
  | cur, [] => .ok cur
  | cur, p :: rest =>
      match processOne E raster cur p with
      | .error e => .error e
      | .ok cur' => processSmall E raster cur' rest

/-- One body execution of the `while` loop (lines 229-308): process the sorted
undersized snapshot, record `len_before`, dissolve the whole frame by the
dissolve key and explode back to simple polygons, record `len_after`, reset
every `changed` flag. -/
def passOnce (E : Engine G R) [DecidableEq V] (raster : Option (G → Int)) (lim : Int)
    (g : List (Feat G V)) : Except String (List (Feat G V) × Nat × Nat) :=
  match processSmall E raster g (smallSorted E lim g) with
  | .error e => .error e
  | .ok cur =>
      let g2 := (explodeGdf E (dissolveBy E cur)).map (fun f => { f with changed := false })
      .ok (g2, cur.length, g2.length)

/-- The `while` loop of lines 225-308, with fuel, also counting the executed
passes.  The loop continues while the undersized set is nonempty AND
`len_before != len_after`. -/
def loopAux (E : Engine G R) [DecidableEq V] (raster : Option (G → Int)) (lim : Int) :
    Nat → List (Feat G V) → Nat → Nat → Nat → Except String (List (Feat G V) × Nat)
  | 0, g, _, _, cnt => .ok (g, cnt)
  | fuel + 1, g, lb, la, cnt =>
      if 0 < (smallSorted E lim g).length ∧ lb ≠ la then
        match passOnce E raster lim g with
        | .error e => .error e
        | .ok (g2, lb2, la2) => loopAux E raster lim fuel g2 lb2 la2 (cnt + 1)
      else .ok (g, cnt)

/-- `simplify_shps(gdf_in, area_lim, cat_col, keep_cols, comp_raster)`
(lines 137-320), returning the result frame together with the number of
executed passes.  Per lines 193-195 and 222 the input is reindexed, exploded
and its `changed` column initialised; per line 218 `to_crs(epsg=31467)` raises
before the loop when the frame has no CRS.  The loop gets fuel
`length + 2`, proven sufficient in `simplify_shps_pass_ceiling`.  Line 314
drops the transient `changed` column (modelled by clearing the flag, which
the loop exit already guarantees). -/
def initFrame (E : Engine G R) (gdf : GDF G V) : List (Feat G V) :=
  (explodeGdf E gdf.feats).map (fun f => { f with changed := false })

def simplifyCore (E : Engine G R) [DecidableEq V] (raster : Option (G → Int))
    (gdf : GDF G V) (lim : Int) : Except String (GDF G V × Nat) :=
  let g0 := initFrame E gdf
  match gdf.crs with
  | none => .error "Cannot transform naive geometries.  Please set a crs on the object first."
  | some c =>
      match loopAux E raster lim (g0.length + 2) g0 3 2 0 with
      | .error e => .error e
      | .ok (g, cnt) => .ok (⟨some c, g.map (fun f => { f with changed := false })⟩, cnt)

/-- `simplify_shps`: the returned GeoDataFrame. -/
def simplify_shps (E : Engine G R) [DecidableEq V] (raster : Option (G → Int))
    (gdf : GDF G V) (lim : Int) : Except String (GDF G V) :=
  match simplifyCore E raster gdf lim with
  | .error e => .error e
  | .ok (g, _) => .ok g

/-- The number of convergence passes `simplify_shps` executes (0 when the call
raises). -/
def simplifyPasses (E : Engine G R) [DecidableEq V] (raster : Option (G → Int))
    (gdf : GDF G V) (lim : Int) : Nat :=
  match simplifyCore E raster gdf lim with
  | .error _ => 0
  | .ok (_, cnt) => cnt

/-! ## The spatial partitioner (`simplify_shps_mp`, lines 331-444)

Claim C4 only concerns the partition/defer logic of lines 360-399, which works
purely on the per-feature bounding boxes (`gdf_in.bounds`) and native-CRS
areas (`.area`); a feature is represented by these five rationals.  The
multiprocessing fan-out, the shapefile staging and the final global pass call
back into `simplify_shps` and the file helpers and add nothing to the claim. -/

/-- The data of one input feature that lines 360-399 read: its bounding box
(`bounds`: minx, miny, maxx, maxy) and its native-CRS area. -/
structure BFeat where
  minx : Rat
  miny : Rat
  maxx : Rat
  maxy : Rat
  areaO : Rat
deriving DecidableEq

/-- `max` of a rational column (pandas `.max()`); 0 on the empty frame, where
pandas would give NaN — the claims only concern nonempty frames. -/
def colMax (f : BFeat → Rat) (l : List BFeat) : Rat :=
  match l.map f with
  | [] => 0
  | x :: xs => xs.foldl max x

/-- `min` of a rational column (pandas `.min()`). -/
def colMin (f : BFeat → Rat) (l : List BFeat) : Rat :=
  match l.map f with
  | [] => 0
  | x :: xs => xs.foldl min x

/-- Line 363: `mean_x = (max_bounds["maxx"] + min_bounds["minx"]) / 2`. -/
def meanX (l : List BFeat) : Rat := (colMax (·.maxx) l + colMin (·.minx) l) / 2

/-- Line 364: `mean_y = (max_bounds["maxy"] + min_bounds["miny"]) / 2`. -/
def meanY (l : List BFeat) : Rat := (colMax (·.maxy) l + colMin (·.miny) l) / 2

/-- Lines 370/375/380/385: membership of a feature in quadrant `q`
(`q = 0,1,2,3` for the python code's quarters 1-4). -/
def inQuad (mx my : Rat) (q : Nat) (f : BFeat) : Bool :=
  match q with
  | 0 => decide (f.miny ≥ my) && decide (f.maxx ≤ mx)
  | 1 => decide (f.miny ≥ my) && decide (f.minx > mx)
  | 2 => decide (f.maxy < my) && decide (f.maxx ≤ mx)
  | 3 => decide (f.maxy < my) && decide (f.minx > mx)
  | _ => false

/-- Lines 371-373/376-378/381-383/386-388: membership of a quadrant feature in
its quadrant's border selection (`parts_border`): its bounding box is within
`dist_lim` of BOTH inward-facing midlines. -/
def inBand (mx my dist : Rat) (q : Nat) (f : BFeat) : Bool :=
  match q with
  | 0 => decide (f.miny < my + dist) && decide (f.maxx > mx - dist)
  | 1 => decide (f.miny < my + dist) && decide (f.minx < mx + dist)
  | 2 => decide (f.maxy > my - dist) && decide (f.maxx > mx - dist)
  | 3 => decide (f.maxy > my - dist) && decide (f.minx < mx + dist)
  | _ => false

/-- Lines 390-393: the rows of quadrant `q` kept as that quadrant's input:
quadrant members minus the border-band rows whose native area is below
`area_lim` (the `part.drop(part_excl_shps.index)`). -/
def quadPart (mx my dist lim : Rat) (q : Nat) (l : List (Nat × BFeat)) :
    List (Nat × BFeat) :=
  (l.filter (fun p => inQuad mx my q p.2)).filter
    (fun p => !(inBand mx my dist q p.2 && decide (p.2.areaO < lim)))

/-- A row is assigned to some quadrant's input. -/
def assigned (mx my dist lim : Rat) (p : Nat × BFeat) : Bool :=
  (inQuad mx my 0 p.2 && !(inBand mx my dist 0 p.2 && decide (p.2.areaO < lim))) ||
  (inQuad mx my 1 p.2 && !(inBand mx my dist 1 p.2 && decide (p.2.areaO < lim))) ||
  (inQuad mx my 2 p.2 && !(inBand mx my dist 2 p.2 && decide (p.2.areaO < lim))) ||
  (inQuad mx my 3 p.2 && !(inBand mx my dist 3 p.2 && decide (p.2.areaO < lim)))

/-- Lines 396-399: `excluded_shps`, the deferred rows: input rows that ended up
in none of the four quadrant inputs (`index.isin(indexes_in_parts) == False`). -/
def excludedShps (dist lim : Rat) (l : List BFeat) : List (Nat × BFeat) :=
  l.enum.filter (fun p => !(assigned (meanX l) (meanY l) dist lim p))

/-! ## `del_shp` (lines 447-461)

File names are modelled as `List Char`; the directory of the given path is
the list of file names living next to it. -/

/-- `pathlib` stem/suffix of a file name: split at the LAST dot, provided it
is neither the first nor the last character; otherwise the suffix is empty. -/
def splitStem (cs : List Char) : List Char × List Char :=
  match ((cs.enum.filter (fun p => p.2 = '.')).map (·.1)).getLast? with
  | none => (cs, [])
  | some i =>
      if 0 < i ∧ i + 1 < cs.length then (cs.take i, cs.drop i) else (cs, [])

/-- `p` is an initial segment of the second list. -/
def leadsWith : List Char → List Char → Bool
  | [], _ => true
  | _ :: _, [] => false
  | a :: as, b :: bs => decide (a = b) && leadsWith as bs

/-- `fp.parent.glob(fp.stem + ".*")` membership for a literal stem: the glob
`*` matches any (possibly empty) character sequence of a file name, so a name
matches iff it starts with the stem followed by a dot. -/
def globStemDot (stem name : List Char) : Bool :=
  leadsWith (stem ++ ['.']) name

/-- `del_shp(fp)` (lines 447-461) acting on the list of file names in `fp`'s
directory: if `fp.suffix == ".shp"`, unlink every file matching
`fp.stem + ".*"` and return the remaining directory with no warning;
otherwise raise the `Warning` and leave the directory untouched. -/
def del_shp (name : List Char) (dir : List (List Char)) :
    List (List Char) × Option String :=
  if (splitStem name).2 = ['.', 's', 'h', 'p'] then
    (dir.filter (fun n => !globStemDot (splitStem name).1 n), none)
  else
    (dir, some "The given file is not a valid ESRI-Shape file. No file got deleted.")

/-! ## Concrete engine instances and inputs used by counterexamples and witnesses -/

/-- The three-feature frame of the C4 counterexample: two quadrant-interior
features and one large feature straddling the vertical midline. -/
def cexMpList : List BFeat :=
  [⟨0, 6, 4, 10, 50⟩, ⟨6, 0, 10, 4, 50⟩, ⟨4, 6, 6, 10, 999⟩]

/-- A degenerate engine instance over one-point geometry, used by witnesses:
every geometry is single-part, nothing touches. -/
def unitEngine : Engine Unit Unit :=
  { geUnion := fun _ => (), geParts := fun _ => [()], geTouches := fun _ _ => false,
    geIntersects := fun _ _ => false, areaO := fun _ => 0, areaP := fun _ => 5,
    boundary := fun _ => [()], ringIntersects := fun _ _ => false,
    ringTouches := fun _ _ => false, shLen := fun _ _ => 0 }

/-- `unitEngine` with everything touching, used by witnesses. -/
def touchEngine : Engine Unit Unit := { unitEngine with geTouches := fun _ _ => true }

/-- Concrete engine for the raster tie-break analysis (C3): geometry ids
0 (the sliver), 1 and 2 (the candidates); single-ring boundaries reuse the
geometry id; the shared border with candidate geometry 2 is the longer one. -/
def rasterCexEngine : Engine Nat Nat :=
  { geUnion := fun _ => 0, geParts := fun g => [g], geTouches := fun _ _ => true,
    geIntersects := fun _ _ => true, areaO := fun g => (g : Int), areaP := fun _ => 0,
    boundary := fun g => [g], ringIntersects := fun _ _ => true,
    ringTouches := fun _ _ => true,
    shLen := fun _ r => if r = 2 then 5 else 1 }

/-- The zonal means of the C3 failing input: sliver 10, candidates 7 and 13 —
exactly equal absolute difference 3 on both sides. -/
def rasterCexMean : Nat → Int := fun g => if g = 0 then 10 else if g = 1 then 7 else 13

/-- Modelled from the claim's words (spec side of C5, for comparison with the
code): the shared-path score of a candidate taking the maximum across the
ring components of BOTH boundaries whenever either is multi-ring. -/
def specBorderScore (E : Engine G R) (rowGeom cand : G) : Int :=
  match ((E.boundary rowGeom).map
      (fun g => (E.boundary cand).map (fun r => E.shLen g r))).flatten with
  | [] => 0
  | x :: xs => xs.foldl max x

/-- Concrete engine for the border-policy ring analysis (C5): the sliver is
geometry 0 (one boundary ring, 100); candidate 1 has the two-ring boundary
[11, 12], candidate 2 the single ring [21]; every ring touches the sliver. -/
def borderCexEngine : Engine Nat Nat :=
  { geUnion := fun _ => 0, geParts := fun g => [g], geTouches := fun _ _ => true,
    geIntersects := fun _ _ => true, areaO := fun g => (g : Int), areaP := fun _ => 0,
    boundary := fun g => if g = 1 then [11, 12] else if g = 2 then [21] else [100],
    ringIntersects := fun _ _ => true, ringTouches := fun _ _ => true,
    shLen := fun _ r => if r = 11 then 5 else if r = 12 then 2 else
      if r = 21 then 3 else 0 }

/-- A geometry the engine regards as one simple polygon: exploding it gives
back just the geometry itself. -/
def IsSingle (E : Engine G R) (g : G) : Prop := E.geParts g = [g]

/-! ### The chain family (C2): a k-feature input that needs k passes

Geometries are finite sets of unit "atoms" on a line, written as lists of
atom positions; two geometries touch when they hold consecutive atoms,
intersect when they share an atom, `unary_union` concatenates, and `explode`
splits into maximal runs of consecutive atoms.  The input `chainGdf k` is a
row of k unit squares, category `i` on square `i`; every pass shifts each
category one square leftwards and merges exactly the last two squares, so the
feature count drops by exactly one per pass and the run takes k passes. -/

def adjTouch (a b : List Nat) : Bool :=
  a.any (fun x => b.any (fun y => x + 1 = y || y + 1 = x))

def listMeets (a b : List Nat) : Bool := a.any (fun x => x ∈ b)

def runFrom (x : Nat) : List Nat → List Nat × List Nat
  | [] => ([x], [])
  | y :: rest =>
      if y = x + 1 then
        ((runFrom y rest).1.cons x, (runFrom y rest).2)
      else ([x], y :: rest)

def splitRunsF : Nat → List Nat → List (List Nat)
  | 0, _ => []
  | _ + 1, [] => []
  | n + 1, x :: rest => (runFrom x rest).1 :: splitRunsF n (runFrom x rest).2

/-- Maximal runs of consecutive atoms: the simple-polygon parts of an atom
set written in increasing order. -/
def splitRuns (l : List Nat) : List (List Nat) := splitRunsF l.length l

/-- The chain engine: atom-set geometry on a line. -/
def chainE : Engine (List Nat) Unit :=
  { geUnion := fun gs => gs.flatten,
    geParts := splitRuns,
    geTouches := adjTouch,
    geIntersects := listMeets,
    areaO := fun g => (((g.map (fun x => x + 1)).sum : Nat) : Int),
    areaP := fun g => ((g.length : Nat) : Int),
    boundary := fun _ => [()],
    ringIntersects := fun _ _ => false,
    ringTouches := fun _ _ => false,
    shLen := fun _ _ => 0 }

/-- The chain state with m features left (1 ≤ m ≤ k): squares `0..m-2` carry
categories `k-m .. k-2`, and the merged tail blob `[m-1 .. k-1]` carries
category `k-1`. -/
def chainFeats (k m : Nat) : List (Feat (List Nat) Nat) :=
  (List.range (m - 1)).map (fun j => ⟨[j], [k - m + j], [], false⟩) ++
    [⟨List.range' (m - 1) (k - m + 1), [k - 1], [], false⟩]

/-- The chain input: k unit squares with k distinct categories. -/
def chainGdf (k : Nat) : GDF (List Nat) Nat := ⟨some 1, chainFeats k k⟩

/-- The mid-pass state over `chainFeats k m`: squares `0..i-1` already
rewrote their category to their right neighbour's and carry the `changed`
flag. -/
def chainMid (k m i : Nat) : List (Feat (List Nat) Nat) :=
  (List.range (m - 1)).map (fun j =>
    ⟨[j], [if j < i then k - m + j + 1 else k - m + j], [], decide (j < i)⟩) ++
    [⟨List.range' (m - 1) (k - m + 1), [k - 1], [], false⟩]

/-! ## Lemmas and claim theorems -/

theorem leadsWith_iff (p n : List Char) : leadsWith p n = true ↔ ∃ t, n = p ++ t := by
  induction p generalizing n with
  | nil => simp [leadsWith]
  | cons a as ih =>
      cases n with
      | nil => simp [leadsWith]
      | cons b bs =>
          simp only [leadsWith, Bool.and_eq_true, decide_eq_true_eq, ih, List.cons_append,
            List.cons.injEq]
          constructor
          · rintro ⟨hab, t, ht⟩
            exact ⟨t, hab.symm, ht⟩
          · rintro ⟨t, hb, ht⟩
            exact ⟨hb.symm, t, ht⟩


/-- C9: `del_shp` on a path whose suffix is not `.shp` reports the `Warning`
and deletes no file; on a path with suffix `.shp` it deletes exactly the files
of the same directory whose name is the path's stem followed by a dot and an
arbitrary (possibly empty) remainder, i.e. all sidecar files of the layer. -/
theorem del_shp_claim (name : List Char) (dir : List (List Char)) (n : List Char) :
    ((splitStem name).2 ≠ ['.', 's', 'h', 'p'] →
      (del_shp name dir).2.isSome ∧ (del_shp name dir).1 = dir) ∧
    ((splitStem name).2 = ['.', 's', 'h', 'p'] →
      (del_shp name dir).2 = none ∧
        ((n ∈ dir ∧ n ∉ (del_shp name dir).1) ↔
          (n ∈ dir ∧ ∃ ext, n = (splitStem name).1 ++ '.' :: ext))) := by
  constructor
  · intro h
    simp [del_shp, if_neg h]
  · intro h
    have hres : (del_shp name dir).1 =
        dir.filter (fun m => !globStemDot (splitStem name).1 m) := by
      simp [del_shp, if_pos h]
    refine ⟨by simp [del_shp, if_pos h], ?_⟩
    rw [hres]
    constructor
    · rintro ⟨hn, hmem⟩
      refine ⟨hn, ?_⟩
      have hg : globStemDot (splitStem name).1 n = true := by
        by_contra hng
        have hgf : globStemDot (splitStem name).1 n = false := by
          cases hcase : globStemDot (splitStem name).1 n
          · rfl
          · exact absurd hcase hng
        exact hmem (List.mem_filter.2 ⟨hn, by rw [hgf]; rfl⟩)
      rcases (leadsWith_iff _ _).1 hg with ⟨t, ht⟩
      exact ⟨t, by simpa using ht⟩
    · rintro ⟨hn, t, ht⟩
      have hg : globStemDot (splitStem name).1 n = true :=
        (leadsWith_iff _ _).2 ⟨t, by simpa using ht⟩
      refine ⟨hn, fun hmem => ?_⟩
      have hp := (List.mem_filter.1 hmem).2
      rw [hg] at hp
      exact absurd hp (by decide)

/-- Witness for `del_shp_claim`: a `.txt` path raises and deletes nothing;
deleting `e.shp` removes the sidecar `e.dbf` but keeps `f.shp`. -/
theorem del_shp_claim_witness :
    ((del_shp ['a', '.', 't', 'x', 't'] [['a', '.', 't', 'x', 't']]).2.isSome ∧
      (del_shp ['a', '.', 't', 'x', 't'] [['a', '.', 't', 'x', 't']]).1 =
        [['a', '.', 't', 'x', 't']]) ∧
    ((del_shp ['e', '.', 's', 'h', 'p']
        [['e', '.', 's', 'h', 'p'], ['e', '.', 'd', 'b', 'f'], ['f', '.', 's', 'h', 'p']]).2 =
        none ∧
      ((['e', '.', 'd', 'b', 'f'] ∈
            ([['e', '.', 's', 'h', 'p'], ['e', '.', 'd', 'b', 'f'],
              ['f', '.', 's', 'h', 'p']] : List (List Char)) ∧
          ['e', '.', 'd', 'b', 'f'] ∉
            (del_shp ['e', '.', 's', 'h', 'p']
              [['e', '.', 's', 'h', 'p'], ['e', '.', 'd', 'b', 'f'],
                ['f', '.', 's', 'h', 'p']]).1) ↔
        (['e', '.', 'd', 'b', 'f'] ∈
            ([['e', '.', 's', 'h', 'p'], ['e', '.', 'd', 'b', 'f'],
              ['f', '.', 's', 'h', 'p']] : List (List Char)) ∧
          ∃ ext, ['e', '.', 'd', 'b', 'f'] =
            (splitStem ['e', '.', 's', 'h', 'p']).1 ++ '.' :: ext))) :=
  ⟨(del_shp_claim ['a', '.', 't', 'x', 't'] [['a', '.', 't', 'x', 't']]
      ['a', '.', 't', 'x', 't']).1 (by decide),
    (del_shp_claim ['e', '.', 's', 'h', 'p']
      [['e', '.', 's', 'h', 'p'], ['e', '.', 'd', 'b', 'f'], ['f', '.', 's', 'h', 'p']]
      ['e', '.', 'd', 'b', 'f']).2 (by decide)⟩

theorem inQuad_unique (mx my : Rat) (f : BFeat) (hx : f.minx ≤ f.maxx)
    (hy : f.miny ≤ f.maxy) :
    ∀ q q', q < 4 → q' < 4 → inQuad mx my q f = true → inQuad mx my q' f = true → q = q' := by
  intro q q' hq hq' h h'
  interval_cases q <;> interval_cases q' <;>
    simp only [inQuad, Bool.and_eq_true, decide_eq_true_eq] at h h' <;>
    first
      | rfl
      | (exfalso; obtain ⟨h1, h2⟩ := h; obtain ⟨h3, h4⟩ := h'; linarith)

theorem mem_quadPart_iff (mx my dist lim : Rat) (q : Nat) (l : List (Nat × BFeat))
    (p : Nat × BFeat) :
    p ∈ quadPart mx my dist lim q l ↔
      p ∈ l ∧ inQuad mx my q p.2 = true ∧
        (inBand mx my dist q p.2 && decide (p.2.areaO < lim)) = false := by
  simp only [quadPart, List.mem_filter, Bool.not_eq_true', and_assoc]

theorem assigned_true_iff (mx my dist lim : Rat) (p : Nat × BFeat) :
    assigned mx my dist lim p = true ↔
      ∃ q, q < 4 ∧ inQuad mx my q p.2 = true ∧
        (inBand mx my dist q p.2 && decide (p.2.areaO < lim)) = false := by
  simp only [assigned, Bool.or_eq_true, Bool.and_eq_true, Bool.not_eq_true']
  constructor
  · rintro (((⟨h1, h2⟩ | ⟨h1, h2⟩) | ⟨h1, h2⟩) | ⟨h1, h2⟩)
    · exact ⟨0, by omega, h1, h2⟩
    · exact ⟨1, by omega, h1, h2⟩
    · exact ⟨2, by omega, h1, h2⟩
    · exact ⟨3, by omega, h1, h2⟩
  · rintro ⟨q, hq, h1, h2⟩
    interval_cases q
    · exact Or.inl (Or.inl (Or.inl ⟨h1, h2⟩))
    · exact Or.inl (Or.inl (Or.inr ⟨h1, h2⟩))
    · exact Or.inl (Or.inr ⟨h1, h2⟩)
    · exact Or.inr ⟨h1, h2⟩

theorem assigned_false_iff (mx my dist lim : Rat) (p : Nat × BFeat) :
    assigned mx my dist lim p = false ↔
      ∀ q, q < 4 → inQuad mx my q p.2 = true →
        (inBand mx my dist q p.2 && decide (p.2.areaO < lim)) = true := by
  constructor
  · intro hf q hq hquad
    cases hcase : (inBand mx my dist q p.2 && decide (p.2.areaO < lim))
    · exfalso
      have : assigned mx my dist lim p = true :=
        (assigned_true_iff mx my dist lim p).2 ⟨q, hq, hquad, hcase⟩
      rw [this] at hf
      exact Bool.noConfusion hf
    · rfl
  · intro hall
    cases hcase : assigned mx my dist lim p
    · rfl
    · exfalso
      rcases (assigned_true_iff mx my dist lim p).1 hcase with ⟨q, hq, hquad, hbs⟩
      have := hall q hq hquad
      rw [this] at hbs
      exact Bool.noConfusion hbs

theorem mem_excludedShps_iff (dist lim : Rat) (l : List BFeat) (p : Nat × BFeat) :
    p ∈ excludedShps dist lim l ↔
      p ∈ l.enum ∧ assigned (meanX l) (meanY l) dist lim p = false := by
  simp [excludedShps, List.mem_filter]

/-- C4 (amended): in `simplify_shps_mp` a feature is deferred (excluded from
every quadrant input and reattached unprocessed) iff either its bounding box
lies in none of the four quadrants — it straddles a midline —, or it lies in a
quadrant, within `dist_lim` of both of that quadrant's inward-facing midlines,
and its native-CRS area is below `area_lim`; and every non-deferred feature
belongs to exactly one quadrant input. -/
theorem simplify_shps_mp_defer_iff (dist lim : Rat) (l : List BFeat) (p : Nat × BFeat)
    (hx : p.2.minx ≤ p.2.maxx) (hy : p.2.miny ≤ p.2.maxy) :
    (p ∈ excludedShps dist lim l ↔
      p ∈ l.enum ∧
        ((∀ q, q < 4 → inQuad (meanX l) (meanY l) q p.2 = false) ∨
          ∃ q, q < 4 ∧ inQuad (meanX l) (meanY l) q p.2 = true ∧
            inBand (meanX l) (meanY l) dist q p.2 = true ∧ p.2.areaO < lim)) ∧
    (p ∈ l.enum → p ∉ excludedShps dist lim l →
      ∃! q, q < 4 ∧ p ∈ quadPart (meanX l) (meanY l) dist lim q l.enum) := by
  constructor
  · rw [mem_excludedShps_iff]
    constructor
    · rintro ⟨hl, hna⟩
      refine ⟨hl, ?_⟩
      rw [assigned_false_iff] at hna
      by_cases hall : ∀ q, q < 4 → inQuad (meanX l) (meanY l) q p.2 = false
      · exact Or.inl hall
      · right
        push_neg at hall
        obtain ⟨q, hq, hquad⟩ := hall
        have hquad' : inQuad (meanX l) (meanY l) q p.2 = true := by
          cases hcase : inQuad (meanX l) (meanY l) q p.2
          · exact absurd hcase hquad
          · rfl
        have hbs := hna q hq hquad'
        rw [Bool.and_eq_true, decide_eq_true_eq] at hbs
        exact ⟨q, hq, hquad', hbs.1, hbs.2⟩
    · rintro ⟨hl, hcase⟩
      refine ⟨hl, ?_⟩
      rw [assigned_false_iff]
      intro q hq hquad
      rcases hcase with hall | ⟨q', hq', hquad', hband', harea'⟩
      · rw [hall q hq] at hquad
        exact Bool.noConfusion hquad
      · have : q' = q := inQuad_unique _ _ _ hx hy q' q hq' hq hquad' hquad
        subst this
        rw [Bool.and_eq_true, decide_eq_true_eq]
        exact ⟨hband', harea'⟩
  · intro hl hne
    rw [mem_excludedShps_iff] at hne
    have ha : assigned (meanX l) (meanY l) dist lim p = true := by
      cases hcase : assigned (meanX l) (meanY l) dist lim p
      · exact absurd ⟨hl, hcase⟩ hne
      · rfl
    rcases (assigned_true_iff _ _ _ _ _).1 ha with ⟨q, hq, hquad, hbs⟩
    refine ⟨q, ⟨hq, (mem_quadPart_iff _ _ _ _ _ _ _).2 ⟨hl, hquad, hbs⟩⟩, ?_⟩
    rintro q' ⟨hq', hmem'⟩
    rcases (mem_quadPart_iff _ _ _ _ _ _ _).1 hmem' with ⟨_, hquad', _⟩
    exact inQuad_unique _ _ _ hx hy q' q hq' hq hquad' hquad

theorem cexMp_meanX : meanX cexMpList = 5 := by
  norm_num [meanX, colMax, colMin, cexMpList]

theorem cexMp_meanY : meanY cexMpList = 5 := by
  norm_num [meanY, colMax, colMin, cexMpList]

/-- C4 counterexample: in `cexMpList` the third feature (area 999, far above
`area_lim = 100`) straddles the vertical midline, lies in none of the four
quadrants, and is nevertheless deferred by `simplify_shps_mp` — refuting both
"deferred iff undersized and within the border band" and "every other feature
is assigned to exactly one of the four quadrant partitions". -/
theorem simplify_shps_mp_defer_cex :
    (2, (⟨4, 6, 6, 10, 999⟩ : BFeat)) ∈ excludedShps 1 100 cexMpList ∧
    ¬ ((⟨4, 6, 6, 10, 999⟩ : BFeat).areaO < 100) ∧
    inQuad (meanX cexMpList) (meanY cexMpList) 0 ⟨4, 6, 6, 10, 999⟩ = false ∧
    inQuad (meanX cexMpList) (meanY cexMpList) 1 ⟨4, 6, 6, 10, 999⟩ = false ∧
    inQuad (meanX cexMpList) (meanY cexMpList) 2 ⟨4, 6, 6, 10, 999⟩ = false ∧
    inQuad (meanX cexMpList) (meanY cexMpList) 3 ⟨4, 6, 6, 10, 999⟩ = false := by
  rw [mem_excludedShps_iff, cexMp_meanX, cexMp_meanY]
  refine ⟨⟨by decide, ?_⟩, by norm_num, by decide, by decide, by decide, by decide⟩
  rw [assigned_false_iff]
  intro q hq hquad
  interval_cases q <;> exact absurd hquad (by decide)

/-- Witness for `simplify_shps_mp_defer_iff`: the first feature of
`cexMpList` is kept and belongs to exactly one quadrant input. -/
theorem simplify_shps_mp_defer_iff_witness :
    ∃! q, q < 4 ∧ (0, (⟨0, 6, 4, 10, 50⟩ : BFeat)) ∈
      quadPart (meanX cexMpList) (meanY cexMpList) 1 100 q cexMpList.enum :=
  (simplify_shps_mp_defer_iff 1 100 cexMpList (0, ⟨0, 6, 4, 10, 50⟩) (by norm_num)
    (by norm_num)).2 (by decide)
    (by
      rw [mem_excludedShps_iff, cexMp_meanX, cexMp_meanY]
      rintro ⟨-, hfalse⟩
      have hass : assigned 5 5 1 100 (0, (⟨0, 6, 4, 10, 50⟩ : BFeat)) = true := by
        refine (assigned_true_iff 5 5 1 100 _).2 ⟨0, by omega, by decide, ?_⟩
        rw [Bool.and_eq_false_iff]
        left
        simp only [inBand]
        rw [Bool.and_eq_false_iff]
        left
        rw [decide_eq_false_iff_not]
        norm_num
      rw [hass] at hfalse
      exact Bool.noConfusion hfalse)

theorem loopAux_cnt_mono (E : Engine G R) [DecidableEq V] (raster : Option (G → Int))
    (lim : Int) :
    ∀ fuel (g : List (Feat G V)) lb la cnt g' cnt',
      loopAux E raster lim fuel g lb la cnt = .ok (g', cnt') → cnt ≤ cnt' := by
  intro fuel
  induction fuel with
  | zero =>
      intro g lb la cnt g' cnt' h
      simp only [loopAux] at h
      cases h
      exact le_refl _
  | succ n ih =>
      intro g lb la cnt g' cnt' h
      simp only [loopAux] at h
      split at h
      · cases hpass : passOnce E raster lim g with
        | error e =>
            rw [hpass] at h
            cases h
        | ok t =>
            obtain ⟨g2, lb2, la2⟩ := t
            rw [hpass] at h
            have := ih g2 lb2 la2 (cnt + 1) g' cnt' h
            omega
      · cases h
        exact le_refl _

theorem smallSorted_eq_nil_iff (E : Engine G R) [DecidableEq V] (lim : Int)
    (l : List (Feat G V)) :
    smallSorted E lim l = [] ↔ ∀ f ∈ l, ¬(E.areaP f.geom < lim) := by
  constructor
  · intro h f hf hlt
    have hf' : f ∈ l.enum.map Prod.snd := by
      rw [List.enum_map_snd]
      exact hf
    rcases List.mem_map.1 hf' with ⟨p, hp, hpf⟩
    have hmem : p ∈ smallList E lim l :=
      List.mem_filter.2 ⟨hp, by rw [hpf]; exact decide_eq_true hlt⟩
    have hins : p ∈ smallSorted E lim l := (List.mem_insertionSort _).2 hmem
    rw [h] at hins
    cases hins
  · intro h
    have hnil : smallList E lim l = [] := by
      rw [smallList, List.filter_eq_nil_iff]
      intro p hp
      have hsnd : p.2 ∈ l := by
        have := List.mem_map_of_mem Prod.snd hp
        rwa [List.enum_map_snd] at this
      simp only [decide_eq_true_eq]
      exact h p.2 hsnd
    rw [smallSorted, hnil]
    rfl

/-- C1: the convergence loop exits exactly when the undersized set (projected
area below `area_lim`) is empty or the feature count before the dissolve step
(`len_before`) equals the count after the dissolve-and-explode step
(`len_after`); in every other case another scanning pass runs (so the state
and pass counter move on, and the loop result cannot be the current state). -/
theorem simplify_shps_loop_exit (E : Engine G R) [DecidableEq V]
    (raster : Option (G → Int)) (lim : Int) (fuel : Nat) (g : List (Feat G V))
    (lb la cnt : Nat) :
    loopAux E raster lim (fuel + 1) g lb la cnt = .ok (g, cnt) ↔
      ((∀ f ∈ g, ¬(E.areaP f.geom < lim)) ∨ lb = la) := by
  constructor
  · intro h
    by_contra hrhs
    push_neg at hrhs
    obtain ⟨hsmall, hlbla⟩ := hrhs
    have hne : smallSorted E lim g ≠ [] := by
      intro hnil
      rcases hsmall with ⟨f, hf, hlt⟩
      exact (smallSorted_eq_nil_iff E lim g).1 hnil f hf hlt
    have hguard : 0 < (smallSorted E lim g).length ∧ lb ≠ la :=
      ⟨List.length_pos.2 hne, hlbla⟩
    simp only [loopAux] at h
    rw [if_pos hguard] at h
    cases hpass : passOnce E raster lim g with
    | error e =>
        rw [hpass] at h
        cases h
    | ok t =>
        obtain ⟨g2, lb2, la2⟩ := t
        rw [hpass] at h
        have := loopAux_cnt_mono E raster lim fuel g2 lb2 la2 (cnt + 1) g cnt h
        omega
  · intro h
    have hguard : ¬(0 < (smallSorted E lim g).length ∧ lb ≠ la) := by
      rcases h with hall | heq
      · rintro ⟨hpos, -⟩
        rw [(smallSorted_eq_nil_iff E lim g).2 hall] at hpos
        simp at hpos
      · rintro ⟨-, hne⟩
        exact hne heq
    simp only [loopAux]
    rw [if_neg hguard]

/-- C7: in every scanning pass the processed snapshot (`passOnce` iterates
over `smallSorted`, the model of `mask_shps_small` after the
`area.sort_values()` reordering of lines 219/306-308) is sorted
smallest-area-first — by the native-CRS `.area`, the key the code sorts on —
and consists of exactly the undersized rows of the frame; as a pure function
of the frame this order is deterministic, including on ties. -/
theorem simplify_shps_pass_order (E : Engine G R) [DecidableEq V] (lim : Int)
    (l : List (Feat G V)) :
    (smallSorted E lim l).Sorted (areaLe E) ∧
      (smallSorted E lim l).Perm
        (l.enum.filter (fun p => E.areaP p.2.geom < lim)) :=
  ⟨List.sorted_insertionSort _ _, List.perm_insertionSort _ _⟩

/-- C10: the undersized test of lines 218/306 uses the area after
`to_crs(epsg=31467)`: membership in the per-pass undersized snapshot is
exactly `areaP < area_lim`; and on a frame with no CRS `simplify_shps` raises
(before any pass, whatever the areas — in particular even when no feature is
undersized), returning no output frame. -/
theorem simplify_shps_projected_area_claim (E : Engine G R) [DecidableEq V]
    (raster : Option (G → Int)) (lim : Int) (gdf : GDF G V)
    (l : List (Feat G V)) (p : Nat × Feat G V) :
    (gdf.crs = none →
      simplify_shps E raster gdf lim =
        .error "Cannot transform naive geometries.  Please set a crs on the object first.") ∧
    (p ∈ smallSorted E lim l ↔ p ∈ l.enum ∧ E.areaP p.2.geom < lim) := by
  constructor
  · intro h
    simp [simplify_shps, simplifyCore, h]
  · rw [smallSorted, List.mem_insertionSort, smallList, List.mem_filter,
      decide_eq_true_eq]

/-- C6: during a pass, a sliver whose filtered candidate set is empty is
skipped without error (`processOne` returns the frame unchanged); and when any
candidate carries the `changed` flag, selection operates on the candidate set
re-dissolved by the dissolve key and re-exploded to simple polygons (with
labels renumbered `0..n-1` by `ignore_index=True`). -/
theorem neighbor_resolver_recency_and_skip (E : Engine G R) [DecidableEq V]
    (raster : Option (G → Int)) (cur : List (Feat G V)) (p : Nat × Feat G V) :
    (candFilter E cur p.2 = [] → processOne E raster cur p = .ok cur) ∧
    ((candFilter E cur p.2).any (fun q => q.2.changed) = true →
      processOne E raster cur p =
        applySel E raster cur p.1 p.2
          ((explodeGdf E (dissolveBy E ((candFilter E cur p.2).map (·.2)))).enum)) := by
  constructor
  · intro h
    simp [processOne, h]
  · intro h
    simp [processOne, h]

/-- Witness for `simplify_shps_projected_area_claim`: a CRS-less frame whose
only feature is NOT undersized (projected area 5, limit 3) still raises. -/
theorem simplify_shps_projected_area_claim_witness :
    simplify_shps unitEngine none (⟨none, [⟨(), [0], [], false⟩]⟩ : GDF Unit Nat) 3 =
      .error "Cannot transform naive geometries.  Please set a crs on the object first." ∧
    ((0, (⟨(), [0], [], false⟩ : Feat Unit Nat)) ∈
        smallSorted unitEngine 3 [⟨(), [0], [], false⟩] ↔
      (0, (⟨(), [0], [], false⟩ : Feat Unit Nat)) ∈
          ([⟨(), [0], [], false⟩] : List (Feat Unit Nat)).enum ∧
        unitEngine.areaP () < 3) :=
  ⟨(simplify_shps_projected_area_claim unitEngine none 3 ⟨none, [⟨(), [0], [], false⟩]⟩
      [⟨(), [0], [], false⟩] (0, ⟨(), [0], [], false⟩)).1 rfl,
    (simplify_shps_projected_area_claim unitEngine none 3 ⟨none, [⟨(), [0], [], false⟩]⟩
      [⟨(), [0], [], false⟩] (0, ⟨(), [0], [], false⟩)).2⟩

/-- Witness for `neighbor_resolver_recency_and_skip`: with no touching
neighbour the sliver is skipped; with a touching changed neighbour the
selection input is the re-dissolved re-exploded candidate set. -/
theorem neighbor_resolver_recency_and_skip_witness :
    processOne unitEngine (none : Option (Unit → Int))
      [(⟨(), [1], [], false⟩ : Feat Unit Nat)] (0, ⟨(), [2], [], false⟩) =
      .ok [⟨(), [1], [], false⟩] ∧
    processOne touchEngine (none : Option (Unit → Int))
      [(⟨(), [1], [], true⟩ : Feat Unit Nat)] (0, ⟨(), [2], [], false⟩) =
      applySel touchEngine none [⟨(), [1], [], true⟩] 0 ⟨(), [2], [], false⟩
        ((explodeGdf touchEngine (dissolveBy touchEngine
          ((candFilter touchEngine [⟨(), [1], [], true⟩]
            (⟨(), [2], [], false⟩ : Feat Unit Nat)).map (·.2)))).enum) :=
  ⟨(neighbor_resolver_recency_and_skip unitEngine none [⟨(), [1], [], false⟩]
      (0, ⟨(), [2], [], false⟩)).1 (by decide),
    (neighbor_resolver_recency_and_skip touchEngine none [⟨(), [1], [], true⟩]
      (0, ⟨(), [2], [], false⟩)).2 (by decide)⟩

/-- C3 (code bug): with two candidates at exactly equal minimal raster-mean
difference (both 3), the code does NOT fall back to the border policy:
line 267 tests `value in pandas.Series`, which is membership in the series
INDEX, so the tie goes undetected whenever the minimal difference value
(here 3) is not one of the other candidates' integer labels (here 1);
`idxmin` keeps the first candidate (label 0) although the border policy on
the tied pair — which the spec and the code's own comment require — would
select the second (shared border 5 > 1). -/
theorem raster_tie_fallback_bug :
    rasterDiffs rasterCexMean 0
        [(0, (⟨1, [11], [], false⟩ : Feat Nat Nat)), (1, ⟨2, [22], [], false⟩)] =
      [(0, 3), (1, 3)] ∧
    selectTouch rasterCexEngine (some rasterCexMean) 0
        [(0, (⟨1, [11], [], false⟩ : Feat Nat Nat)), (1, ⟨2, [22], [], false⟩)] = .ok 0 ∧
    borderSel rasterCexEngine 0
        [(0, (⟨1, [11], [], false⟩ : Feat Nat Nat)), (1, ⟨2, [22], [], false⟩)] = .ok 1 :=
  ⟨by decide, rfl, rfl⟩

/-- C5 counterexample: candidate geometry 1 has a two-ring boundary, both
rings touching the sliver; the code scores it by its LAST touching ring
(shared length 2), not by the maximum across its rings (5), and therefore
selects candidate 2 (score 3), while the claim's max-across-both-boundaries
score (5 vs 3) selects candidate 1. -/
theorem border_last_ring_cex :
    borderSel borderCexEngine 0
        [(0, (⟨1, [11], [], false⟩ : Feat Nat Nat)), (1, ⟨2, [22], [], false⟩)] = .ok 1 ∧
    specBorderScore borderCexEngine 0 1 = 5 ∧
    specBorderScore borderCexEngine 0 2 = 3 ∧
    argmaxFst [(0, specBorderScore borderCexEngine 0 1),
      (1, specBorderScore borderCexEngine 0 2)] = some (0, 5) :=
  ⟨rfl, by decide, by decide, by decide⟩

theorem argmaxFst_eq_none_iff (l : List (Nat × Int)) : argmaxFst l = none ↔ l = [] := by
  cases l with
  | nil => simp [argmaxFst]
  | cons p rest =>
      simp only [argmaxFst]
      cases argmaxFst rest with
      | none => simp
      | some m =>
          show (if p.2 < m.2 then some m else some p) = none ↔ p :: rest = []
          by_cases h : p.2 < m.2
          · rw [if_pos h]
            simp
          · rw [if_neg h]
            simp

theorem argmaxFst_spec :
    ∀ (l : List (Nat × Int)) (q : Nat × Int), argmaxFst l = some q →
      q ∈ l ∧ ∀ r ∈ l, r.2 ≤ q.2 := by
  intro l
  induction l with
  | nil => intro q h; cases h
  | cons p rest ih =>
      intro q h
      simp only [argmaxFst] at h
      cases hrec : argmaxFst rest with
      | none =>
          rw [hrec] at h
          cases h
          have hrest : rest = [] := (argmaxFst_eq_none_iff rest).1 hrec
          subst hrest
          refine ⟨List.mem_cons_self _ _, ?_⟩
          intro r hr
          rcases List.mem_cons.1 hr with hr | hr
          · rw [hr]
          · cases hr
      | some m =>
          rw [hrec] at h
          have h' : (if p.2 < m.2 then some m else some p) = some q := h
          rcases ih m hrec with ⟨hmem, hbound⟩
          by_cases hlt : p.2 < m.2
          · rw [if_pos hlt] at h'
            cases h'
            refine ⟨List.mem_cons_of_mem _ hmem, ?_⟩
            intro r hr
            rcases List.mem_cons.1 hr with hr | hr
            · rw [hr]; exact le_of_lt hlt
            · exact hbound r hr
          · rw [if_neg hlt] at h'
            cases h'
            refine ⟨List.mem_cons_self _ _, ?_⟩
            intro r hr
            rcases List.mem_cons.1 hr with hr | hr
            · rw [hr]
            · exact le_trans (hbound r hr) (le_of_not_lt hlt)

/-- C5 (amended): when the border-length policy runs, the per-candidate score
(`scoreList`) is the shared-path length between the sliver's boundary and the
candidate's boundary, where a multi-ring CANDIDATE boundary contributes only
its last ring that intersects or touches the sliver (not the ring maximum),
while the maximum across ring components is taken only over the SLIVER's own
boundary rings; the selected label is one whose score is maximal among all
candidates (the first such on ties, as `idxmax`). -/
theorem border_policy_argmax (E : Engine G R) [DecidableEq V] (rowGeom : G)
    (t : List (Nat × Feat G V)) (scores : List (Nat × Int)) (j : Nat)
    (hsc : scoreList E rowGeom t = .ok scores)
    (hsel : borderSel E rowGeom t = .ok j) :
    ∃ sc, (j, sc) ∈ scores ∧ ∀ q ∈ scores, q.2 ≤ sc := by
  rw [borderSel, hsc] at hsel
  have hsel' : (match argmaxFst scores with
      | none => (Except.error "attempt to get argmax of an empty sequence" : Except String Nat)
      | some q => Except.ok q.1) = Except.ok j := hsel
  cases hmax : argmaxFst scores with
  | none =>
      rw [hmax] at hsel'
      cases hsel'
  | some m =>
      rw [hmax] at hsel'
      obtain rfl : m.1 = j := by injection hsel'
      rcases argmaxFst_spec scores m hmax with ⟨hmem, hbound⟩
      exact ⟨m.2, hmem, hbound⟩

/-- Witness for `border_policy_argmax` at the two-candidate input of the C5
analysis: the selected label 1 attains the maximal score 3. -/
theorem border_policy_argmax_witness :
    ∃ sc, ((1 : Nat), sc) ∈ ([(0, 2), (1, 3)] : List (Nat × Int)) ∧
      ∀ q ∈ ([(0, 2), (1, 3)] : List (Nat × Int)), q.2 ≤ sc :=
  border_policy_argmax borderCexEngine 0
    [(0, (⟨1, [11], [], false⟩ : Feat Nat Nat)), (1, ⟨2, [22], [], false⟩)]
    [(0, 2), (1, 3)] 1 rfl rfl

theorem explodeGdf_singles (E : Engine G R)
    (hP : ∀ g p, p ∈ E.geParts g → IsSingle E p) (l : List (Feat G V)) :
    ∀ f ∈ explodeGdf E l, IsSingle E f.geom := by
  intro f hf
  simp only [explodeGdf, List.mem_flatten] at hf
  rcases hf with ⟨sub, hsub, hfsub⟩
  rcases List.mem_map.1 hsub with ⟨f0, hf0, rfl⟩
  rcases List.mem_map.1 hfsub with ⟨g, hg, rfl⟩
  exact hP f0.geom g hg

theorem initFrame_singles (E : Engine G R)
    (hP : ∀ g p, p ∈ E.geParts g → IsSingle E p) (gdf : GDF G V) :
    ∀ f ∈ initFrame E gdf, IsSingle E f.geom := by
  intro f hf
  rcases List.mem_map.1 hf with ⟨f0, hf0, rfl⟩
  exact explodeGdf_singles E hP gdf.feats f0 hf0

theorem passOnce_singles (E : Engine G R) [DecidableEq V] (raster : Option (G → Int))
    (lim : Int) (hP : ∀ g p, p ∈ E.geParts g → IsSingle E p) (g g2 : List (Feat G V))
    (lb2 la2 : Nat) (h : passOnce E raster lim g = .ok (g2, lb2, la2)) :
    ∀ f ∈ g2, IsSingle E f.geom := by
  rw [passOnce] at h
  split at h
  · cases h
  · rename_i cur heq
    have hpair : g2 = (explodeGdf E (dissolveBy E cur)).map
        (fun f => { f with changed := false }) := by
      cases h
      rfl
    intro f hf
    rw [hpair] at hf
    rcases List.mem_map.1 hf with ⟨f0, hf0, rfl⟩
    exact explodeGdf_singles E hP (dissolveBy E cur) f0 hf0

theorem loopAux_singles (E : Engine G R) [DecidableEq V] (raster : Option (G → Int))
    (lim : Int) (hP : ∀ g p, p ∈ E.geParts g → IsSingle E p) :
    ∀ fuel (g : List (Feat G V)) lb la cnt g' cnt',
      (∀ f ∈ g, IsSingle E f.geom) →
      loopAux E raster lim fuel g lb la cnt = .ok (g', cnt') →
      ∀ f ∈ g', IsSingle E f.geom := by
  intro fuel
  induction fuel with
  | zero =>
      intro g lb la cnt g' cnt' hg h
      simp only [loopAux] at h
      cases h
      exact hg
  | succ n ih =>
      intro g lb la cnt g' cnt' hg h
      simp only [loopAux] at h
      split at h
      · cases hpass : passOnce E raster lim g with
        | error e =>
            rw [hpass] at h
            cases h
        | ok t =>
            obtain ⟨g2, lb2, la2⟩ := t
            rw [hpass] at h
            exact ih g2 lb2 la2 (cnt + 1) g' cnt'
              (passOnce_singles E raster lim hP g g2 lb2 la2 hpass) h
      · cases h
        exact hg

theorem simplifyCore_ok_shape (E : Engine G R) [DecidableEq V]
    (raster : Option (G → Int)) (gdf : GDF G V) (lim : Int) (out : GDF G V) (cnt : Nat)
    (h : simplifyCore E raster gdf lim = .ok (out, cnt)) :
    ∃ c g, gdf.crs = some c ∧
      loopAux E raster lim ((initFrame E gdf).length + 2) (initFrame E gdf) 3 2 0 =
        .ok (g, cnt) ∧
      out = ⟨some c, g.map (fun f => { f with changed := false })⟩ := by
  rw [simplifyCore] at h
  split at h
  · cases h
  · rename_i c heq
    split at h
    · cases h
    · rename_i g2 cnt2 heq2
      refine ⟨c, g2, heq, ?_, ?_⟩
      · rw [heq2]
        cases h
        rfl
      · cases h
        rfl

theorem simplify_shps_ok_core (E : Engine G R) [DecidableEq V]
    (raster : Option (G → Int)) (gdf : GDF G V) (lim : Int) (out : GDF G V)
    (h : simplify_shps E raster gdf lim = .ok out) :
    ∃ cnt, simplifyCore E raster gdf lim = .ok (out, cnt) := by
  rw [simplify_shps] at h
  split at h
  · cases h
  · rename_i g cnt heq
    cases h
    exact ⟨cnt, heq⟩

/-- C8: every feature of the GeoDataFrame returned by `simplify_shps` has a
single-part geometry (exploding it returns just itself; no `MultiPolygon`
survives): the initial explode of line 193, and the dissolve-then-explode of
every pass (lines 300-301), leave only simple-polygon parts, and no other
step of the loop changes a geometry. -/
theorem simplify_shps_single_parts (E : Engine G R) [DecidableEq V]
    (raster : Option (G → Int)) (gdf : GDF G V) (lim : Int) (out : GDF G V)
    (hP : ∀ g p, p ∈ E.geParts g → IsSingle E p)
    (hok : simplify_shps E raster gdf lim = .ok out) :
    ∀ f ∈ out.feats, IsSingle E f.geom := by
  rcases simplify_shps_ok_core E raster gdf lim out hok with ⟨cnt, hcore⟩
  rcases simplifyCore_ok_shape E raster gdf lim out cnt hcore with ⟨c, g, hcrs, hloop, hout⟩
  have hg : ∀ f ∈ g, IsSingle E f.geom :=
    loopAux_singles E raster lim hP ((initFrame E gdf).length + 2) (initFrame E gdf)
      3 2 0 g cnt (initFrame_singles E hP gdf) hloop
  intro f hf
  rw [hout] at hf
  rcases List.mem_map.1 hf with ⟨f0, hf0, rfl⟩
  exact hg f0 hf0

/-- Witness for `simplify_shps_single_parts`: the one-feature frame over the
degenerate engine runs to completion and its output feature is single-part. -/
theorem simplify_shps_single_parts_witness :
    IsSingle unitEngine ((⟨(), [0], [], false⟩ : Feat Unit Nat).geom) :=
  simplify_shps_single_parts unitEngine none
    (⟨some 1, [⟨(), [0], [], false⟩]⟩ : GDF Unit Nat) 3
    (⟨some 1, [⟨(), [0], [], false⟩]⟩ : GDF Unit Nat)
    (fun _ p _ => rfl) rfl (⟨(), [0], [], false⟩ : Feat Unit Nat) (by decide)

theorem applySel_length (E : Engine G R) [DecidableEq V] (raster : Option (G → Int))
    (cur cur' : List (Feat G V)) (i : Nat) (row : Feat G V) (t : List (Nat × Feat G V))
    (h : applySel E raster cur i row t = .ok cur') : cur'.length = cur.length := by
  rw [applySel] at h
  split at h
  · cases h
  · split at h
    · cases h
    · split at h
      · cases h
        rw [List.length_set]
      · cases h
        rfl

theorem applySel_pred (E : Engine G R) [DecidableEq V] (raster : Option (G → Int))
    (P : G → Prop) (cur cur' : List (Feat G V)) (i : Nat) (row : Feat G V)
    (t : List (Nat × Feat G V)) (h : applySel E raster cur i row t = .ok cur')
    (hcur : ∀ f ∈ cur, P f.geom) : ∀ f ∈ cur', P f.geom := by
  rw [applySel] at h
  split at h
  · cases h
  · split at h
    · cases h
    · rename_i j q hq
      split at h
      · rename_i f0 hf0
        cases h
        intro x hx
        rcases List.mem_or_eq_of_mem_set hx with hx | rfl
        · exact hcur x hx
        · have hf0mem : f0 ∈ cur := by
            have := List.getElem?_eq_some.1 hf0
            rcases this with ⟨hlt, hget⟩
            rw [← hget]
            exact List.getElem_mem hlt
          exact hcur f0 hf0mem
      · cases h
        exact hcur

theorem processOne_length (E : Engine G R) [DecidableEq V] (raster : Option (G → Int))
    (cur cur' : List (Feat G V)) (p : Nat × Feat G V)
    (h : processOne E raster cur p = .ok cur') : cur'.length = cur.length := by
  simp only [processOne] at h
  split at h
  · exact applySel_length E raster cur cur' p.1 p.2 _ h
  · split at h
    · cases h
      rfl
    · exact applySel_length E raster cur cur' p.1 p.2 _ h

theorem processOne_pred (E : Engine G R) [DecidableEq V] (raster : Option (G → Int))
    (P : G → Prop) (cur cur' : List (Feat G V)) (p : Nat × Feat G V)
    (h : processOne E raster cur p = .ok cur') (hcur : ∀ f ∈ cur, P f.geom) :
    ∀ f ∈ cur', P f.geom := by
  simp only [processOne] at h
  split at h
  · exact applySel_pred E raster P cur cur' p.1 p.2 _ h hcur
  · split at h
    · cases h
      exact hcur
    · exact applySel_pred E raster P cur cur' p.1 p.2 _ h hcur

theorem processSmall_length (E : Engine G R) [DecidableEq V] (raster : Option (G → Int)) :
    ∀ (todo : List (Nat × Feat G V)) (cur cur' : List (Feat G V)),
      processSmall E raster cur todo = .ok cur' → cur'.length = cur.length := by
  intro todo
  induction todo with
  | nil =>
      intro cur cur' h
      cases h
      rfl
  | cons p rest ih =>
      intro cur cur' h
      simp only [processSmall] at h
      split at h
      · cases h
      · rename_i curmid hmid
        rw [ih curmid cur' h, processOne_length E raster cur curmid p hmid]

theorem processSmall_pred (E : Engine G R) [DecidableEq V] (raster : Option (G → Int))
    (P : G → Prop) :
    ∀ (todo : List (Nat × Feat G V)) (cur cur' : List (Feat G V)),
      processSmall E raster cur todo = .ok cur' → (∀ f ∈ cur, P f.geom) →
      ∀ f ∈ cur', P f.geom := by
  intro todo
  induction todo with
  | nil =>
      intro cur cur' h hcur
      cases h
      exact hcur
  | cons p rest ih =>
      intro cur cur' h hcur
      simp only [processSmall] at h
      split at h
      · cases h
      · rename_i curmid hmid
        exact ih curmid cur' h (processOne_pred E raster P cur curmid p hmid hcur)

theorem length_filter_key (E : Engine G R) [DecidableEq V] (f : Feat G V)
    (rest : List (Feat G V)) :
    (rest.filter (fun x => keyOf x = keyOf f)).length +
      (rest.filter (fun x => decide (keyOf x ≠ keyOf f))).length = rest.length := by
  induction rest with
  | nil => rfl
  | cons a l ih =>
      rw [List.filter_cons, List.filter_cons]
      by_cases h : keyOf a = keyOf f
      · rw [if_pos (by simp [h]), if_neg (by simp [h])]
        simp only [List.length_cons]
        omega
      · rw [if_neg (by simp [h]), if_pos (by simp [h])]
        simp only [List.length_cons]
        omega

theorem explode_dissolveAux_length (E : Engine G R) [DecidableEq V]
    (hU : ∀ gs : List G, gs ≠ [] → (∀ g ∈ gs, IsSingle E g) →
      (E.geParts (E.geUnion gs)).length ≤ gs.length) :
    ∀ n (l : List (Feat G V)), l.length ≤ n → (∀ f ∈ l, IsSingle E f.geom) →
      (explodeGdf E (dissolveAux E n l)).length ≤ l.length := by
  intro n
  induction n with
  | zero =>
      intro l hlen hsing
      have hnil : l = [] := List.eq_nil_of_length_eq_zero (Nat.le_zero.1 hlen)
      subst hnil
      simp [dissolveAux, explodeGdf]
  | succ n ih =>
      intro l hlen hsing
      cases l with
      | nil => simp [dissolveAux, explodeGdf]
      | cons f rest =>
          have hstep : dissolveAux E (n + 1) (f :: rest) =
              mkDis E (keyOf f) (f :: rest.filter (fun x => keyOf x = keyOf f)) ::
                dissolveAux E n (rest.filter (fun x => decide (keyOf x ≠ keyOf f))) := rfl
          have hexp : ∀ (a : Feat G V) (l' : List (Feat G V)),
              explodeGdf E (a :: l') =
                (E.geParts a.geom).map (fun g => { a with geom := g }) ++ explodeGdf E l' :=
            fun a l' => rfl
          rw [hstep, hexp, List.length_append, List.length_map]
          have hgrp : ∀ x ∈ f :: rest.filter (fun x => keyOf x = keyOf f), x ∈ f :: rest := by
            intro x hx
            rcases List.mem_cons.1 hx with hx | hx
            · exact hx ▸ List.mem_cons_self _ _
            · exact List.mem_cons_of_mem _ (List.mem_filter.1 hx).1
          have hfirst : (E.geParts (mkDis E (keyOf f)
              (f :: rest.filter (fun x => keyOf x = keyOf f))).geom).length ≤
              1 + (rest.filter (fun x => keyOf x = keyOf f)).length := by
            have hs : ∀ g ∈ (f :: rest.filter (fun x => keyOf x = keyOf f)).map (·.geom),
                IsSingle E g := by
              intro g hg
              rcases List.mem_map.1 hg with ⟨x, hx, rfl⟩
              exact hsing x (hgrp x hx)
            have h2 := hU ((f :: rest.filter (fun x => keyOf x = keyOf f)).map (·.geom))
              (by simp) hs
            simp only [mkDis, List.map_cons, List.length_cons, List.length_map] at h2 ⊢
            omega
          have hsecond : (explodeGdf E (dissolveAux E n
              (rest.filter (fun x => decide (keyOf x ≠ keyOf f))))).length ≤
              (rest.filter (fun x => decide (keyOf x ≠ keyOf f))).length := by
            refine ih _ ?_ ?_
            · calc (rest.filter (fun x => decide (keyOf x ≠ keyOf f))).length
                  ≤ rest.length := List.length_filter_le _ _
                _ ≤ n := by
                    simp only [List.length_cons] at hlen
                    omega
            · intro x hx
              exact hsing x (List.mem_cons_of_mem _ (List.mem_filter.1 hx).1)
          have hpart := length_filter_key E f rest
          simp only [List.length_cons]
          omega

theorem explode_dissolve_length (E : Engine G R) [DecidableEq V]
    (hU : ∀ gs : List G, gs ≠ [] → (∀ g ∈ gs, IsSingle E g) →
      (E.geParts (E.geUnion gs)).length ≤ gs.length)
    (cur : List (Feat G V)) (hsing : ∀ f ∈ cur, IsSingle E f.geom) :
    (explodeGdf E (dissolveBy E cur)).length ≤ cur.length :=
  explode_dissolveAux_length E hU cur.length cur (le_refl _) hsing

theorem passOnce_shape (E : Engine G R) [DecidableEq V] (raster : Option (G → Int))
    (lim : Int)
    (hU : ∀ gs : List G, gs ≠ [] → (∀ g ∈ gs, IsSingle E g) →
      (E.geParts (E.geUnion gs)).length ≤ gs.length)
    (g g2 : List (Feat G V)) (lb2 la2 : Nat)
    (hsing : ∀ f ∈ g, IsSingle E f.geom)
    (h : passOnce E raster lim g = .ok (g2, lb2, la2)) :
    lb2 = g.length ∧ la2 = g2.length ∧ g2.length ≤ g.length := by
  rw [passOnce] at h
  split at h
  · cases h
  · rename_i cur heq
    have hlen : cur.length = g.length :=
      processSmall_length E raster (smallSorted E lim g) g cur heq
    have hsingcur : ∀ f ∈ cur, IsSingle E f.geom :=
      processSmall_pred E raster (IsSingle E) (smallSorted E lim g) g cur heq hsing
    have hmain : g2 = (explodeGdf E (dissolveBy E cur)).map
        (fun f => { f with changed := false }) ∧ lb2 = cur.length ∧
        la2 = ((explodeGdf E (dissolveBy E cur)).map
          (fun f => { f with changed := false })).length := by
      cases h
      exact ⟨rfl, rfl, rfl⟩
    obtain ⟨hg2, hlb2, hla2⟩ := hmain
    refine ⟨hlb2.trans hlen, by rw [hla2, hg2], ?_⟩
    rw [hg2, List.length_map, ← hlen]
    exact explode_dissolve_length E hU cur hsingcur

theorem loopAux_guard_eq (E : Engine G R) [DecidableEq V] (raster : Option (G → Int))
    (lim : Int) :
    ∀ fuel (g : List (Feat G V)) lb cnt,
      loopAux E raster lim fuel g lb lb cnt = .ok (g, cnt) := by
  intro fuel g lb cnt
  cases fuel with
  | zero => rfl
  | succ n =>
      simp only [loopAux]
      rw [if_neg]
      rintro ⟨-, hne⟩
      exact hne rfl

theorem smallSorted_nil (E : Engine G R) [DecidableEq V] (lim : Int) :
    smallSorted E lim ([] : List (Feat G V)) = [] := rfl

theorem loopAux_fuel_stable (E : Engine G R) [DecidableEq V] (raster : Option (G → Int))
    (lim : Int)
    (hU : ∀ gs : List G, gs ≠ [] → (∀ g ∈ gs, IsSingle E g) →
      (E.geParts (E.geUnion gs)).length ≤ gs.length)
    (hP : ∀ g p, p ∈ E.geParts g → IsSingle E p) :
    ∀ n (g : List (Feat G V)), g.length ≤ n → (∀ f ∈ g, IsSingle E f.geom) →
      ∀ lb cnt fuel, g.length + 1 ≤ fuel →
        loopAux E raster lim fuel g lb g.length cnt =
          loopAux E raster lim (g.length + 1) g lb g.length cnt := by
  intro n
  induction n with
  | zero =>
      intro g hlen hsing lb cnt fuel hfuel
      have hnil : g = [] := List.eq_nil_of_length_eq_zero (Nat.le_zero.1 hlen)
      subst hnil
      obtain ⟨f', rfl⟩ : ∃ f', fuel = f' + 1 := ⟨fuel - 1, by omega⟩
      simp only [loopAux, List.length_nil]
      rw [if_neg, if_neg] <;>
        · rintro ⟨h0, -⟩
          rw [smallSorted_nil] at h0
          exact Nat.lt_irrefl 0 h0
  | succ n ih =>
      intro g hlen hsing lb cnt fuel hfuel
      obtain ⟨f', rfl⟩ : ∃ f', fuel = f' + 1 := ⟨fuel - 1, by omega⟩
      simp only [loopAux]
      by_cases hguard : 0 < (smallSorted E lim g).length ∧ lb ≠ g.length
      · rw [if_pos hguard, if_pos hguard]
        cases hpass : passOnce E raster lim g with
        | error e => rfl
        | ok t =>
            obtain ⟨g2, lb2, la2⟩ := t
            show loopAux E raster lim f' g2 lb2 la2 (cnt + 1) =
              loopAux E raster lim g.length g2 lb2 la2 (cnt + 1)
            obtain ⟨rfl, rfl, hle⟩ :=
              passOnce_shape E raster lim hU g g2 lb2 la2 hsing hpass
            have hsing2 : ∀ f ∈ g2, IsSingle E f.geom :=
              passOnce_singles E raster lim hP g g2 _ _ hpass
            by_cases heq : g2.length = g.length
            · rw [heq, loopAux_guard_eq, loopAux_guard_eq]
            · have hlt : g2.length < g.length := lt_of_le_of_ne hle heq
              rw [ih g2 (by omega) hsing2 g.length (cnt + 1) f' (by omega),
                ih g2 (by omega) hsing2 g.length (cnt + 1) g.length (by omega)]
      · rw [if_neg hguard, if_neg hguard]

theorem loopAux_cnt_bound (E : Engine G R) [DecidableEq V] (raster : Option (G → Int))
    (lim : Int)
    (hU : ∀ gs : List G, gs ≠ [] → (∀ g ∈ gs, IsSingle E g) →
      (E.geParts (E.geUnion gs)).length ≤ gs.length)
    (hP : ∀ g p, p ∈ E.geParts g → IsSingle E p) :
    ∀ n (g : List (Feat G V)), g.length ≤ n → (∀ f ∈ g, IsSingle E f.geom) →
      ∀ lb cnt fuel g' cnt',
        loopAux E raster lim fuel g lb g.length cnt = .ok (g', cnt') →
        cnt' ≤ cnt + g.length + 1 := by
  intro n
  induction n with
  | zero =>
      intro g hlen hsing lb cnt fuel g' cnt' h
      have hnil : g = [] := List.eq_nil_of_length_eq_zero (Nat.le_zero.1 hlen)
      subst hnil
      cases fuel with
      | zero =>
          simp only [loopAux] at h
          cases h
          omega
      | succ m =>
          simp only [loopAux, List.length_nil] at h
          rw [if_neg] at h
          · cases h
            omega
          · rintro ⟨h0, -⟩
            rw [smallSorted_nil] at h0
            exact Nat.lt_irrefl 0 h0
  | succ n ih =>
      intro g hlen hsing lb cnt fuel g' cnt' h
      cases fuel with
      | zero =>
          simp only [loopAux] at h
          cases h
          omega
      | succ m =>
          simp only [loopAux] at h
          split at h
          · cases hpass : passOnce E raster lim g with
            | error e =>
                rw [hpass] at h
                cases h
            | ok t =>
                obtain ⟨g2, lb2, la2⟩ := t
                rw [hpass] at h
                have h2 : loopAux E raster lim m g2 lb2 la2 (cnt + 1) = .ok (g', cnt') := h
                obtain ⟨rfl, rfl, hle⟩ :=
                  passOnce_shape E raster lim hU g g2 lb2 la2 hsing hpass
                have hsing2 : ∀ f ∈ g2, IsSingle E f.geom :=
                  passOnce_singles E raster lim hP g g2 _ _ hpass
                by_cases heq : g2.length = g.length
                · rw [heq, loopAux_guard_eq] at h2
                  cases h2
                  omega
                · have hlt : g2.length < g.length := lt_of_le_of_ne hle heq
                  have := ih g2 (by omega) hsing2 g.length (cnt + 1) m g' cnt' h2
                  omega
          · cases h
            omega

/-- C2 (amended): `simplify_shps` has no explicit pass ceiling and emits no
"did not fully converge" report; nevertheless it cannot loop indefinitely:
each continued pass strictly decreases the feature count (the loop guard
requires `len_before != len_after` and dissolving-then-exploding single-part
features never increases the count), so on any input the number of executed
passes is at most the initial exploded feature count plus two, and giving the
loop any more fuel than that returns the identical result — the loop always
exits through its own convergence guard, never by exhaustion. -/
theorem simplify_shps_pass_ceiling (E : Engine G R) [DecidableEq V]
    (raster : Option (G → Int)) (gdf : GDF G V) (lim : Int)
    (hU : ∀ gs : List G, gs ≠ [] → (∀ g ∈ gs, IsSingle E g) →
      (E.geParts (E.geUnion gs)).length ≤ gs.length)
    (hP : ∀ g p, p ∈ E.geParts g → IsSingle E p) :
    (∀ out cnt, simplifyCore E raster gdf lim = .ok (out, cnt) →
      cnt ≤ (initFrame E gdf).length + 2) ∧
    (∀ fuel, (initFrame E gdf).length + 2 ≤ fuel →
      loopAux E raster lim fuel (initFrame E gdf) 3 2 0 =
        loopAux E raster lim ((initFrame E gdf).length + 2) (initFrame E gdf) 3 2 0) := by
  have hsing0 : ∀ f ∈ initFrame E gdf, IsSingle E f.geom := initFrame_singles E hP gdf
  constructor
  · intro out cnt h
    rcases simplifyCore_ok_shape E raster gdf lim out cnt h with ⟨c, g, hcrs, hloop, hout⟩
    simp only [loopAux] at hloop
    split at hloop
    · cases hpass : passOnce E raster lim (initFrame E gdf) with
      | error e =>
          rw [hpass] at hloop
          cases hloop
      | ok t =>
          obtain ⟨g2, lb2, la2⟩ := t
          rw [hpass] at hloop
          have h2 : loopAux E raster lim ((initFrame E gdf).length + 1) g2 lb2 la2 1 =
              .ok (g, cnt) := hloop
          obtain ⟨rfl, rfl, hle⟩ :=
            passOnce_shape E raster lim hU (initFrame E gdf) g2 lb2 la2 hsing0 hpass
          have hsing2 : ∀ f ∈ g2, IsSingle E f.geom :=
            passOnce_singles E raster lim hP (initFrame E gdf) g2 _ _ hpass
          have := loopAux_cnt_bound E raster lim hU hP g2.length g2 (le_refl _) hsing2
            (initFrame E gdf).length 1 ((initFrame E gdf).length + 1) g cnt h2
          omega
    · cases hloop
      omega
  · intro fuel hfuel
    obtain ⟨f', rfl⟩ : ∃ f', fuel = f' + 1 := ⟨fuel - 1, by omega⟩
    simp only [loopAux]
    by_cases hguard : 0 < (smallSorted E lim (initFrame E gdf)).length ∧ (3 : Nat) ≠ 2
    · rw [if_pos hguard, if_pos hguard]
      cases hpass : passOnce E raster lim (initFrame E gdf) with
      | error e => rfl
      | ok t =>
          obtain ⟨g2, lb2, la2⟩ := t
          show loopAux E raster lim f' g2 lb2 la2 1 =
            loopAux E raster lim ((initFrame E gdf).length + 1) g2 lb2 la2 1
          obtain ⟨rfl, rfl, hle⟩ :=
            passOnce_shape E raster lim hU (initFrame E gdf) g2 lb2 la2 hsing0 hpass
          have hsing2 : ∀ f ∈ g2, IsSingle E f.geom :=
            passOnce_singles E raster lim hP (initFrame E gdf) g2 _ _ hpass
          rw [loopAux_fuel_stable E raster lim hU hP g2.length g2 (le_refl _) hsing2
              (initFrame E gdf).length 1 f' (by omega),
            loopAux_fuel_stable E raster lim hU hP g2.length g2 (le_refl _) hsing2
              (initFrame E gdf).length 1 ((initFrame E gdf).length + 1) (by omega)]
    · rw [if_neg hguard, if_neg hguard]

/-- Witness for `simplify_shps_pass_ceiling`: the degenerate one-feature run
executes 0 passes, within the ceiling. -/
theorem simplify_shps_pass_ceiling_witness :
    (0 : Nat) ≤
      (initFrame unitEngine (⟨some 1, [⟨(), [0], [], false⟩]⟩ : GDF Unit Nat)).length + 2 :=
  (simplify_shps_pass_ceiling unitEngine none
      (⟨some 1, [⟨(), [0], [], false⟩]⟩ : GDF Unit Nat) 3
      (fun gs hne _ => by
        cases gs with
        | nil => exact absurd rfl hne
        | cons a l => exact Nat.succ_le_succ (Nat.zero_le _))
      (fun _ p _ => rfl)).1
    (⟨some 1, [⟨(), [0], [], false⟩]⟩ : GDF Unit Nat) 0 rfl

/-! ### Helper lemmas for the chain family -/

theorem enum_map_range_append {α : Type} (n : Nat) (F : Nat → α) (b : α) :
    ((List.range n).map F ++ [b]).enum =
      (List.range n).map (fun j => (j, F j)) ++ [(n, b)] := by
  apply List.ext_getElem
  · simp [List.enum_length]
  · intro i h1 h2
    rw [List.getElem_enum]
    rw [List.getElem_append, List.getElem_append]
    have hlen : ((List.range n).map F).length = n := by simp
    have hlen2 : ((List.range n).map (fun j => (j, F j))).length = n := by simp
    by_cases hi : i < n
    · rw [dif_pos (by simpa [hlen] using hi), dif_pos (by simpa [hlen2] using hi)]
      simp
    · rw [dif_neg (by simpa [hlen] using hi), dif_neg (by simpa [hlen2] using hi)]
      have hieq : i = n := by
        simp only [List.length_append, List.length_map, List.length_range,
          List.length_cons, List.length_nil] at h2
        omega
      subst hieq
      simp

theorem filter_range'_eq_nil (s n : Nat) (q : Nat → Bool)
    (h : ∀ j, s ≤ j → j < s + n → q j = false) :
    (List.range' s n).filter q = [] := by
  rw [List.filter_eq_nil_iff]
  intro j hj
  rw [List.mem_range'_1] at hj
  rw [h j hj.1 hj.2]
  exact Bool.false_ne_true

theorem filter_range'_eq_single (s n a : Nat) (q : Nat → Bool)
    (hs : s ≤ a) (ha : a < s + n) (hq : q a = true)
    (h : ∀ j, s ≤ j → j < s + n → j ≠ a → q j = false) :
    (List.range' s n).filter q = [a] := by
  induction n generalizing s with
  | zero => omega
  | succ n ih =>
      rw [List.range'_succ, List.filter_cons]
      by_cases hsa : s = a
      · subst hsa
        rw [if_pos hq]
        rw [filter_range'_eq_nil (s + 1) n q (fun j hj1 hj2 => h j (by omega) (by omega)
          (by omega))]
      · rw [if_neg ?_]
        · exact ih (s + 1) (by omega) (by omega)
            (fun j hj1 hj2 hne => h j (by omega) (by omega) hne)
        · rw [h s (le_refl s) (by omega) hsa]
          exact Bool.false_ne_true

theorem explodeGdf_append (E : Engine G R) (l1 l2 : List (Feat G V)) :
    explodeGdf E (l1 ++ l2) = explodeGdf E l1 ++ explodeGdf E l2 := by
  simp [explodeGdf]

theorem explodeGdf_id (E : Engine G R) (l : List (Feat G V))
    (h : ∀ f ∈ l, E.geParts f.geom = [f.geom]) : explodeGdf E l = l := by
  induction l with
  | nil => rfl
  | cons f rest ih =>
      have hexp : explodeGdf E (f :: rest) =
          (E.geParts f.geom).map (fun g => { f with geom := g }) ++ explodeGdf E rest := rfl
      rw [hexp, h f (List.mem_cons_self _ _), ih (fun x hx => h x (List.mem_cons_of_mem _ hx))]
      rfl

theorem map_changed_false_id (l : List (Feat G V)) (h : ∀ f ∈ l, f.changed = false) :
    l.map (fun f => { f with changed := false }) = l := by
  induction l with
  | nil => rfl
  | cons f rest ih =>
      rw [List.map_cons, ih (fun x hx => h x (List.mem_cons_of_mem _ hx))]
      have : f.changed = false := h f (List.mem_cons_self _ _)
      cases f
      simp only at this
      rw [this]

theorem runFrom_range' (n : Nat) :
    ∀ x, runFrom x (List.range' (x + 1) n) = (List.range' x (n + 1), []) := by
  induction n with
  | zero =>
      intro x
      rfl
  | succ n ih =>
      intro x
      rw [List.range'_succ, runFrom, if_pos rfl, ih (x + 1)]
      rfl

theorem splitRuns_range' (a n : Nat) (hn : 1 ≤ n) :
    splitRuns (List.range' a n) = [List.range' a n] := by
  obtain ⟨n', rfl⟩ : ∃ n', n = n' + 1 := ⟨n - 1, by omega⟩
  rw [splitRuns]
  have hlen : (List.range' a (n' + 1)).length = n' + 1 := by simp
  rw [hlen]
  rw [List.range'_succ]
  show (runFrom a (List.range' (a + 1) n')).1 ::
    splitRunsF n' (runFrom a (List.range' (a + 1) n')).2 = _
  rw [runFrom_range' n' a]
  have hz : ∀ fuel, splitRunsF fuel ([] : List Nat) = [] := by
    intro fuel
    cases fuel <;> rfl
  rw [hz]
  rw [List.range'_succ]

theorem splitRuns_singleton (x : Nat) : splitRuns [x] = [[x]] := rfl

theorem range'_map_sum_ge (a n : Nat) (hn : 1 ≤ n) :
    a + 1 ≤ ((List.range' a n).map (fun x => x + 1)).sum := by
  obtain ⟨n', rfl⟩ : ∃ n', n = n' + 1 := ⟨n - 1, by omega⟩
  rw [List.range'_succ, List.map_cons, List.sum_cons]
  omega

theorem chain_blob_areaO_ge (a n : Nat) (hn : 1 ≤ n) :
    Int.ofNat (a + 1) ≤ chainE.areaO (List.range' a n) := by
  show Int.ofNat (a + 1) ≤ Int.ofNat (((List.range' a n).map (fun x => x + 1)).sum)
  exact Int.ofNat_le.2 (range'_map_sum_ge a n hn)

theorem chain_smallList (k m : Nat) (hm : 1 ≤ m) (hmk : m ≤ k) :
    smallList chainE ((k + 1 : Nat) : Int) (chainFeats k m) = (chainFeats k m).enum := by
  rw [smallList, List.filter_eq_self]
  intro p hp
  have hsnd : p.2 ∈ chainFeats k m := by
    have := List.mem_map_of_mem Prod.snd hp
    rwa [List.enum_map_snd] at this
  rw [chainFeats] at hsnd
  rw [decide_eq_true_eq]
  rcases List.mem_append.1 hsnd with h | h
  · rcases List.mem_map.1 h with ⟨j, hj, hjp⟩
    have hj' : j < m - 1 := List.mem_range.1 hj
    rw [← hjp]
    show ((1 : Nat) : Int) < ((k + 1 : Nat) : Int)
    omega
  · rw [List.mem_singleton] at h
    rw [h]
    show (((List.range' (m - 1) (k - m + 1)).length : Nat) : Int) < ((k + 1 : Nat) : Int)
    rw [List.length_range']
    omega

theorem chain_enum (k m : Nat) :
    (chainFeats k m).enum =
      (List.range (m - 1)).map
        (fun j => (j, (⟨[j], [k - m + j], [], false⟩ : Feat (List Nat) Nat))) ++
        [(m - 1, ⟨List.range' (m - 1) (k - m + 1), [k - 1], [], false⟩)] := by
  rw [chainFeats]
  exact enum_map_range_append _ _ _

theorem chain_sorted (k m : Nat) (hm : 1 ≤ m) :
    List.Sorted (areaLe chainE) (chainFeats k m).enum := by
  rw [chain_enum]
  rw [List.Sorted, List.pairwise_append]
  refine ⟨?_, ?_, ?_⟩
  · refine List.Pairwise.map _ ?_ (List.pairwise_lt_range (m - 1))
    intro a b hab
    show chainE.areaO [a] ≤ chainE.areaO [b]
    show ((a + 1 + 0 : Nat) : Int) ≤ ((b + 1 + 0 : Nat) : Int)
    omega
  · simp
  · intro x hx y hy
    rcases List.mem_map.1 hx with ⟨j, hj, hjx⟩
    rw [List.mem_singleton] at hy
    subst hy
    rw [← hjx]
    show chainE.areaO [j] ≤ chainE.areaO (List.range' (m - 1) (k - m + 1))
    have h1 := chain_blob_areaO_ge (m - 1) (k - m + 1) (by omega)
    have hj' : j < m - 1 := List.mem_range.1 hj
    refine le_trans ?_ h1
    show ((j + 1 + 0 : Nat) : Int) ≤ ((m - 1 + 1 : Nat) : Int)
    omega

theorem chain_smallSorted (k m : Nat) (hm : 1 ≤ m) (hmk : m ≤ k) :
    smallSorted chainE ((k + 1 : Nat) : Int) (chainFeats k m) = (chainFeats k m).enum := by
  rw [smallSorted, chain_smallList k m hm hmk]
  exact List.Sorted.insertionSort_eq (chain_sorted k m hm)

theorem filter_map_range_append_single {α : Type} (n : Nat) (F : Nat → α) (b : α)
    (Q : α → Bool) (a : Nat) (ha : a < n) (hqa : Q (F a) = true)
    (hother : ∀ j, j < n → j ≠ a → Q (F j) = false) (hb : Q b = false) :
    ((List.range n).map F ++ [b]).filter Q = [F a] := by
  rw [List.filter_append, List.filter_map, List.range_eq_range']
  rw [filter_range'_eq_single 0 n a (Q ∘ F) (Nat.zero_le a) (by omega) hqa
    (fun j h1 h2 hne => hother j (by omega) hne)]
  rw [List.filter_cons]
  rw [if_neg (by rw [hb]; exact Bool.false_ne_true)]
  rfl

theorem filter_map_range_append_last {α : Type} (n : Nat) (F : Nat → α) (b : α)
    (Q : α → Bool) (hall : ∀ j, j < n → Q (F j) = false) (hb : Q b = true) :
    ((List.range n).map F ++ [b]).filter Q = [b] := by
  rw [List.filter_append, List.filter_map, List.range_eq_range']
  rw [filter_range'_eq_nil 0 n (Q ∘ F) (fun j h1 h2 => hall j (by omega))]
  rw [List.filter_cons, if_pos hb]
  rfl

theorem filter_map_range_append_nil {α : Type} (n : Nat) (F : Nat → α) (b : α)
    (Q : α → Bool) (hall : ∀ j, j < n → Q (F j) = false) (hb : Q b = false) :
    ((List.range n).map F ++ [b]).filter Q = [] := by
  rw [List.filter_append, List.filter_map, List.range_eq_range']
  rw [filter_range'_eq_nil 0 n (Q ∘ F) (fun j h1 h2 => hall j (by omega))]
  rw [List.filter_cons]
  rw [if_neg (by rw [hb]; exact Bool.false_ne_true)]
  rfl

theorem chainMid_enum (k m i : Nat) :
    (chainMid k m i).enum =
      (List.range (m - 1)).map (fun j => (j,
        (⟨[j], [if j < i then k - m + j + 1 else k - m + j], [], decide (j < i)⟩ :
          Feat (List Nat) Nat))) ++
      [(m - 1, ⟨List.range' (m - 1) (k - m + 1), [k - 1], [], false⟩)] := by
  rw [chainMid]
  exact enum_map_range_append _ _ _

theorem adjTouch_blob_row_false (a n i : Nat) (ha : i + 1 < a) :
    adjTouch (List.range' a n) [i] = false := by
  rw [← Bool.not_eq_true]
  simp only [adjTouch, List.any_eq_true, List.any_cons, List.any_nil, Bool.or_false,
    Bool.or_eq_true, decide_eq_true_eq, List.mem_range'_1]
  rintro ⟨x, ⟨hx1, hx2⟩, hx3 | hx4⟩ <;> omega

theorem adjTouch_blob_row_true (a n i : Nat) (hn : 1 ≤ n) (hi : i + 1 = a) :
    adjTouch (List.range' a n) [i] = true := by
  simp only [adjTouch, List.any_eq_true, List.any_cons, List.any_nil, Bool.or_false,
    Bool.or_eq_true, decide_eq_true_eq, List.mem_range'_1]
  exact ⟨a, ⟨le_refl a, by omega⟩, Or.inr hi⟩

theorem listMeets_blob_row_false (a n i : Nat) (hi : i < a) :
    listMeets (List.range' a n) [i] = false := by
  rw [← Bool.not_eq_true]
  simp only [listMeets, List.any_eq_true, List.mem_range'_1, List.mem_singleton,
    decide_eq_true_eq]
  rintro ⟨x, ⟨hx1, hx2⟩, hx3⟩
  omega

theorem chain_candFilter_step (k m i : Nat) (h2 : 2 ≤ m) (hmk : m ≤ k) (hi : i < m - 1) :
    ∃ cg, candFilter chainE (chainMid k m i)
        (⟨[i], [k - m + i], [], false⟩ : Feat (List Nat) Nat) =
      [(i + 1, ⟨cg, [k - m + i + 1], [], false⟩)] := by
  by_cases hcase : i + 1 < m - 1
  · refine ⟨[i + 1], ?_⟩
    rw [candFilter, List.filter_filter, List.filter_filter, chainMid_enum]
    refine (filter_map_range_append_single (m - 1) _ _ _ (i + 1) hcase ?_ ?_ ?_).trans ?_
    · simp [chainE, adjTouch, listMeets]
    · intro j hj hne
      rw [← Bool.not_eq_true]
      simp [chainE, adjTouch, listMeets]
      by_cases hji : j < i
      · rw [if_pos hji]
        omega
      · rw [if_neg hji]
        omega
    · show ((decide (([] : List Nat) = []) &&
          decide (¬([k - 1] : List Nat) = [k - m + i])) &&
          (adjTouch (List.range' (m - 1) (k - m + 1)) [i] ||
            listMeets (List.range' (m - 1) (k - m + 1)) [i])) = false
      rw [adjTouch_blob_row_false (m - 1) (k - m + 1) i (by omega),
        listMeets_blob_row_false (m - 1) (k - m + 1) i (by omega)]
      simp
    · simp
      omega
  · have hieq : i + 1 = m - 1 := by omega
    refine ⟨List.range' (m - 1) (k - m + 1), ?_⟩
    have hcats : k - 1 = k - m + i + 1 := by omega
    rw [candFilter, List.filter_filter, List.filter_filter, chainMid_enum]
    refine (filter_map_range_append_last (m - 1) _ _ _ ?_ ?_).trans ?_
    · intro j hj
      rw [← Bool.not_eq_true]
      simp [chainE, adjTouch, listMeets]
      by_cases hji : j < i
      · rw [if_pos hji]
        omega
      · rw [if_neg hji]
        omega
    · show ((decide (([] : List Nat) = []) &&
          decide (¬([k - 1] : List Nat) = [k - m + i])) &&
          (adjTouch (List.range' (m - 1) (k - m + 1)) [i] ||
            listMeets (List.range' (m - 1) (k - m + 1)) [i])) = true
      rw [adjTouch_blob_row_true (m - 1) (k - m + 1) i (by omega) (by omega)]
      simp only [Bool.true_or, Bool.and_true, Bool.and_eq_true, decide_eq_true_eq,
        List.cons.injEq, and_true, true_and]
      omega
    · rw [hieq, hcats]

theorem chainMid_length (k m i : Nat) : (chainMid k m i).length = m - 1 + 1 := by
  simp [chainMid]

theorem chainMid_getElemQ (k m i j : Nat) (hj : j < m - 1) :
    (chainMid k m i)[j]? =
      some ⟨[j], [if j < i then k - m + j + 1 else k - m + j], [], decide (j < i)⟩ := by
  rw [chainMid, List.getElem?_append, if_pos (by simpa using hj), List.getElem?_map,
    List.getElem?_range hj]
  rfl

theorem chainMid_getElem_lt (k m i j : Nat) (hj : j < m - 1)
    (h : j < (chainMid k m i).length) :
    (chainMid k m i)[j] =
      ⟨[j], [if j < i then k - m + j + 1 else k - m + j], [], decide (j < i)⟩ := by
  have := chainMid_getElemQ k m i j hj
  rw [List.getElem?_eq_getElem h] at this
  exact Option.some.inj this

theorem chainMid_getElemQ_last (k m i : Nat) :
    (chainMid k m i)[m - 1]? =
      some ⟨List.range' (m - 1) (k - m + 1), [k - 1], [], false⟩ := by
  rw [chainMid, List.getElem?_append, if_neg (by simp)]
  simp

theorem chainMid_getElem_last (k m i : Nat) (h : m - 1 < (chainMid k m i).length) :
    (chainMid k m i)[m - 1] =
      ⟨List.range' (m - 1) (k - m + 1), [k - 1], [], false⟩ := by
  have := chainMid_getElemQ_last k m i
  rw [List.getElem?_eq_getElem h] at this
  exact Option.some.inj this

theorem chainMid_set_step (k m i : Nat) (hi : i < m - 1) :
    (chainMid k m i).set i
        (⟨[i], [k - m + i + 1], [], true⟩ : Feat (List Nat) Nat) =
      chainMid k m (i + 1) := by
  apply List.ext_getElem
  · rw [List.length_set, chainMid_length, chainMid_length]
  · intro n h1 h2
    rw [List.getElem_set]
    have hn : n < m - 1 + 1 := by
      rw [List.length_set, chainMid_length] at h1
      exact h1
    by_cases hni : i = n
    · subst hni
      rw [chainMid_getElem_lt k m (i + 1) i hi h2]
      rw [if_pos rfl, if_pos (by omega)]
      have hd : decide (i < i + 1) = true := decide_eq_true (by omega)
      rw [hd]
    · rw [if_neg hni]
      by_cases hlast : n < m - 1
      · rw [chainMid_getElem_lt k m i n hlast (by rw [List.length_set] at h1; exact h1),
          chainMid_getElem_lt k m (i + 1) n hlast h2]
        by_cases hni2 : n < i
        · rw [if_pos hni2, if_pos (by omega : n < i + 1),
            decide_eq_true (by omega : n < i), decide_eq_true (by omega : n < i + 1)]
        · rw [if_neg hni2, if_neg (by omega : ¬ n < i + 1),
            decide_eq_false (by omega : ¬ n < i), decide_eq_false (by omega : ¬ n < i + 1)]
      · have hneq : n = m - 1 := by omega
        subst hneq
        rw [chainMid_getElem_last k m i (by rw [List.length_set] at h1; exact h1),
          chainMid_getElem_last k m (i + 1) h2]

theorem applySel_single (E : Engine G R) [DecidableEq V] (raster : Option (G → Int))
    (cur : List (Feat G V)) (i : Nat) (row : Feat G V) (j : Nat) (c : Feat G V)
    (f : Feat G V) (hget : cur[i]? = some f) :
    applySel E raster cur i row [(j, c)] =
      Except.ok (cur.set i { f with cats := c.cats, changed := true }) := by
  have hfind : (([(j, c)] : List (Nat × Feat G V)).find? (fun q => q.1 = j)) =
      some (j, c) := List.find?_cons_of_pos _ (by simp)
  have h1 : applySel E raster cur i row [(j, c)] =
      match cur[i]? with
      | some f => Except.ok (cur.set i { f with cats := c.cats, changed := true })
      | none => Except.ok cur := by
    show (match ([(j, c)] : List (Nat × Feat G V)).find? (fun q => q.1 = j) with
      | none => (Except.error "label not found" : Except String (List (Feat G V)))
      | some q =>
          match cur[i]? with
          | some f => Except.ok (cur.set i { f with cats := q.2.cats, changed := true })
          | none => Except.ok cur) = _
    rw [hfind]
  rw [h1, hget]

theorem chain_processOne_step (k m i : Nat) (h2 : 2 ≤ m) (hmk : m ≤ k) (hi : i < m - 1) :
    processOne chainE none (chainMid k m i)
        ((i, ⟨[i], [k - m + i], [], false⟩) : Nat × Feat (List Nat) Nat) =
      Except.ok (chainMid k m (i + 1)) := by
  obtain ⟨cg, hcf⟩ := chain_candFilter_step k m i h2 hmk hi
  have hget : (chainMid k m i)[i]? =
      some ⟨[i], [k - m + i], [], false⟩ := by
    rw [chainMid_getElemQ k m i i hi]
    rw [if_neg (lt_irrefl i), decide_eq_false (lt_irrefl i)]
  simp only [processOne]
  rw [hcf]
  rw [if_neg (by simp), if_neg (by simp)]
  rw [applySel_single chainE none (chainMid k m i) i _ (i + 1) _ _ hget]
  exact congrArg Except.ok (chainMid_set_step k m i hi)

theorem adjTouch_row_blob_false (i a n : Nat) (ha : i + 1 < a) :
    adjTouch [i] (List.range' a n) = false := by
  rw [← Bool.not_eq_true]
  simp only [adjTouch, List.any_eq_true, List.any_cons, List.any_nil, Bool.or_false,
    Bool.or_eq_true, decide_eq_true_eq, List.mem_singleton, List.mem_range'_1]
  rintro ⟨x, ⟨hx1, hx2⟩, hy | hy⟩ <;> omega

theorem listMeets_row_blob_false (i a n : Nat) (hi : i < a) :
    listMeets [i] (List.range' a n) = false := by
  rw [← Bool.not_eq_true]
  simp only [listMeets, List.any_eq_true, List.mem_singleton, List.mem_range'_1,
    decide_eq_true_eq]
  rintro ⟨x, hx, hx1, hx2⟩
  omega

theorem chain_candFilter_blob (k m : Nat) (h1 : 1 ≤ m) (hmk : m ≤ k) :
    candFilter chainE (chainMid k m (m - 1))
        (⟨List.range' (m - 1) (k - m + 1), [k - 1], [], false⟩ :
          Feat (List Nat) Nat) = [] := by
  rw [candFilter, List.filter_filter, List.filter_filter, chainMid_enum]
  refine filter_map_range_append_nil (m - 1) _ _ _ ?_ ?_
  · intro j hj
    rw [if_pos hj, decide_eq_true hj]
    by_cases hj2 : j + 1 = m - 1
    · show ((decide (([] : List Nat) = []) &&
          decide (¬([k - m + j + 1] : List Nat) = [k - 1])) && _) = false
      have heq : k - m + j + 1 = k - 1 := by omega
      rw [heq]
      simp
    · show ((decide (([] : List Nat) = []) &&
          decide (¬([k - m + j + 1] : List Nat) = [k - 1])) &&
          (adjTouch [j] (List.range' (m - 1) (k - m + 1)) ||
            listMeets [j] (List.range' (m - 1) (k - m + 1)))) = false
      rw [adjTouch_row_blob_false j (m - 1) (k - m + 1) (by omega),
        listMeets_row_blob_false j (m - 1) (k - m + 1) (by omega)]
      simp
  · show ((decide (([] : List Nat) = []) &&
        decide (¬([k - 1] : List Nat) = [k - 1])) && _) = false
    simp

theorem chain_processOne_blob (k m : Nat) (h1 : 1 ≤ m) (hmk : m ≤ k) :
    processOne chainE none (chainMid k m (m - 1))
        ((m - 1, ⟨List.range' (m - 1) (k - m + 1), [k - 1], [], false⟩) :
          Nat × Feat (List Nat) Nat) =
      Except.ok (chainMid k m (m - 1)) := by
  simp only [processOne]
  rw [chain_candFilter_blob k m h1 hmk]
  rfl

theorem chainMid_zero (k m : Nat) : chainMid k m 0 = chainFeats k m := by
  rw [chainMid, chainFeats]
  congr 1

theorem chainFeats_length (k m : Nat) : (chainFeats k m).length = m - 1 + 1 := by
  simp [chainFeats]

theorem chain_processSmall_from (k m : Nat) (h2 : 2 ≤ m) (hmk : m ≤ k) :
    ∀ d i, i + d = m - 1 →
      processSmall chainE none (chainMid k m i)
        ((List.range' i d).map
            (fun j => (j, (⟨[j], [k - m + j], [], false⟩ : Feat (List Nat) Nat))) ++
          [(m - 1, ⟨List.range' (m - 1) (k - m + 1), [k - 1], [], false⟩)]) =
      Except.ok (chainMid k m (m - 1)) := by
  intro d
  induction d with
  | zero =>
    intro i hi
    have hieq : i = m - 1 := by omega
    subst hieq
    rw [List.range'_zero, List.map_nil, List.nil_append]
    simp only [processSmall]
    rw [chain_processOne_blob k m (by omega) hmk]
  | succ dd ih =>
    intro i hi
    rw [List.range'_succ, List.map_cons, List.cons_append]
    simp only [processSmall]
    rw [chain_processOne_step k m i h2 hmk (by omega)]
    exact ih (i + 1) (by omega)

theorem dissolveAux_nil (E : Engine G R) [DecidableEq V] (n : Nat) :
    dissolveAux (V := V) E n ([] : List (Feat G V)) = [] := by
  cases n <;> rfl

theorem filter_range'_eq_self (s n : Nat) (q : Nat → Bool)
    (h : ∀ j, s ≤ j → j < s + n → q j = true) :
    (List.range' s n).filter q = List.range' s n :=
  List.filter_eq_self.mpr
    (fun x hx => h x (List.mem_range'_1.1 hx).1 (List.mem_range'_1.1 hx).2)

theorem chain_dissolveAux (k m : Nat) (h2 : 2 ≤ m) (hmk : m ≤ k) :
    ∀ d a fuel, a + d = m - 2 → d + 1 ≤ fuel →
      dissolveAux chainE fuel
        ((List.range' a (m - 1 - a)).map
            (fun j => (⟨[j], [k - m + j + 1], [], true⟩ : Feat (List Nat) Nat)) ++
          [⟨List.range' (m - 1) (k - m + 1), [k - 1], [], false⟩]) =
      (List.range' a (m - 2 - a)).map
          (fun j => (⟨[j], [k - m + j + 1], [], true⟩ : Feat (List Nat) Nat)) ++
        [⟨List.range' (m - 2) (k - m + 2), [k - 1], [], true⟩] := by
  intro d
  induction d with
  | zero =>
    intro a fuel ha hfuel
    obtain ⟨ff, rfl⟩ : ∃ ff, fuel = ff + 1 := ⟨fuel - 1, by omega⟩
    have haeq : a = m - 2 := by omega
    subst haeq
    have h1 : m - 1 - (m - 2) = 1 := by omega
    have h0 : m - 2 - (m - 2) = 0 := by omega
    rw [h1, h0, List.range'_zero, List.map_nil, List.nil_append]
    rw [List.range'_succ, List.range'_zero, List.map_cons, List.map_nil, List.cons_append,
      List.nil_append]
    have hcat : k - m + (m - 2) + 1 = k - 1 := by omega
    rw [hcat]
    simp only [dissolveAux]
    rw [List.filter_cons, if_pos (by simp [keyOf]), List.filter_nil,
      List.filter_cons, if_neg (by simp [keyOf]), List.filter_nil]
    rw [dissolveAux_nil]
    have hrange : List.range' (m - 2) (k - m + 2) =
        (m - 2) :: (List.range' (m - 1) (k - m + 1) ++ []) := by
      rw [List.append_nil]
      have hk2 : k - m + 2 = (k - m + 1) + 1 := by omega
      have hm1 : m - 2 + 1 = m - 1 := by omega
      rw [hk2, List.range'_succ, hm1]
    rw [hrange]
    rfl
  | succ dd ih =>
    intro a fuel ha hfuel
    obtain ⟨ff, rfl⟩ : ∃ ff, fuel = ff + 1 := ⟨fuel - 1, by omega⟩
    have hr1 : m - 1 - a = (m - 1 - (a + 1)) + 1 := by omega
    rw [hr1, List.range'_succ, List.map_cons, List.cons_append]
    simp only [dissolveAux]
    rw [List.filter_append, List.filter_map,
      filter_range'_eq_nil (a + 1) (m - 1 - (a + 1)) _
        (by
          intro j hj1 hj2
          simp [keyOf]
          omega),
      List.map_nil, List.nil_append, List.filter_cons,
      if_neg (by
        simp [keyOf]
        omega),
      List.filter_nil]
    rw [List.filter_append, List.filter_map,
      filter_range'_eq_self (a + 1) (m - 1 - (a + 1)) _
        (by
          intro j hj1 hj2
          simp [keyOf]
          omega),
      List.filter_cons,
      if_pos (by
        simp [keyOf]
        omega),
      List.filter_nil]
    rw [ih (a + 1) ff (by omega) (by omega)]
    have hr2 : m - 2 - a = (m - 2 - (a + 1)) + 1 := by omega
    rw [hr2, List.range'_succ a (m - 2 - (a + 1)) 1, List.map_cons, List.cons_append]
    rfl

theorem chainMid_full (k m : Nat) :
    chainMid k m (m - 1) =
      (List.range' 0 (m - 1)).map
          (fun j => (⟨[j], [k - m + j + 1], [], true⟩ : Feat (List Nat) Nat)) ++
        [⟨List.range' (m - 1) (k - m + 1), [k - 1], [], false⟩] := by
  rw [chainMid, List.range_eq_range']
  congr 1
  apply List.map_congr_left
  intro j hj
  have hjm : j < m - 1 := by
    have := List.mem_range'_1.1 hj
    omega
  rw [if_pos hjm, decide_eq_true hjm]

theorem chain_dissolveBy (k m : Nat) (h2 : 2 ≤ m) (hmk : m ≤ k) :
    dissolveBy chainE (chainMid k m (m - 1)) =
      (List.range' 0 (m - 2)).map
          (fun j => (⟨[j], [k - m + j + 1], [], true⟩ : Feat (List Nat) Nat)) ++
        [⟨List.range' (m - 2) (k - m + 2), [k - 1], [], true⟩] := by
  rw [dissolveBy, chainMid_full]
  have hlen : (((List.range' 0 (m - 1)).map
      (fun j => (⟨[j], [k - m + j + 1], [], true⟩ : Feat (List Nat) Nat))) ++
      [(⟨List.range' (m - 1) (k - m + 1), [k - 1], [], false⟩ : Feat (List Nat) Nat)]).length =
      m - 1 + 1 := by
    simp
  rw [hlen]
  exact chain_dissolveAux k m h2 hmk (m - 2) 0 (m - 1 + 1) (by omega) (by omega)

theorem chain_g2 (k m : Nat) (h2 : 2 ≤ m) (hmk : m ≤ k) :
    (explodeGdf chainE (dissolveBy chainE (chainMid k m (m - 1)))).map
        (fun f => { f with changed := false }) = chainFeats k (m - 1) := by
  rw [chain_dissolveBy k m h2 hmk]
  rw [explodeGdf_id chainE _ (by
    intro f hf
    rcases List.mem_append.1 hf with h | h
    · rcases List.mem_map.1 h with ⟨j, hj, hjf⟩
      rw [← hjf]
      exact splitRuns_singleton j
    · rw [List.mem_singleton] at h
      rw [h]
      exact splitRuns_range' (m - 2) (k - m + 2) (by omega))]
  rw [List.map_append, List.map_map]
  have hfeats : chainFeats k (m - 1) =
      (List.range' 0 (m - 2)).map
          (fun j => (⟨[j], [k - m + j + 1], [], false⟩ : Feat (List Nat) Nat)) ++
        [⟨List.range' (m - 2) (k - m + 2), [k - 1], [], false⟩] := by
    rw [chainFeats, List.range_eq_range']
    have e1 : m - 1 - 1 = m - 2 := by omega
    have e2 : k - (m - 1) + 1 = k - m + 2 := by omega
    rw [e1, e2]
    congr 1
    apply List.map_congr_left
    intro j hj
    have e3 : k - (m - 1) + j = k - m + j + 1 := by omega
    rw [e3]
  rw [hfeats]
  rfl

theorem chain_passOnce (k m : Nat) (h2 : 2 ≤ m) (hmk : m ≤ k) :
    passOnce chainE none ((k + 1 : Nat) : Int) (chainFeats k m) =
      Except.ok (chainFeats k (m - 1), m, m - 1) := by
  have hsmall : processSmall chainE none (chainFeats k m)
      (smallSorted chainE ((k + 1 : Nat) : Int) (chainFeats k m)) =
      Except.ok (chainMid k m (m - 1)) := by
    rw [chain_smallSorted k m (by omega) hmk, chain_enum, List.range_eq_range',
      ← chainMid_zero]
    exact chain_processSmall_from k m h2 hmk (m - 1) 0 (by omega)
  simp only [passOnce]
  rw [hsmall]
  show Except.ok
      ((explodeGdf chainE (dissolveBy chainE (chainMid k m (m - 1)))).map
          (fun f => { f with changed := false }),
        (chainMid k m (m - 1)).length,
        ((explodeGdf chainE (dissolveBy chainE (chainMid k m (m - 1)))).map
          (fun f => { f with changed := false })).length) =
      Except.ok (chainFeats k (m - 1), m, m - 1)
  rw [chain_g2 k m h2 hmk, chainMid_length, chainFeats_length]
  have e1 : m - 1 + 1 = m := by omega
  have e2 : m - 1 - 1 + 1 = m - 1 := by omega
  rw [e1, e2]

theorem chain_passOnce_one (k : Nat) (hk : 1 ≤ k) :
    passOnce chainE none ((k + 1 : Nat) : Int) (chainFeats k 1) =
      Except.ok (chainFeats k 1, 1, 1) := by
  have hcf1 : chainFeats k 1 =
      [⟨List.range' 0 (k - 1 + 1), [k - 1], [], false⟩] := rfl
  have h0 : (1 : Nat) - 1 = 0 := rfl
  have hpo := chain_processOne_blob k 1 (le_refl 1) hk
  rw [h0, chainMid_zero] at hpo
  have hsmall : processSmall chainE none (chainFeats k 1)
      (smallSorted chainE ((k + 1 : Nat) : Int) (chainFeats k 1)) =
      Except.ok (chainFeats k 1) := by
    rw [chain_smallSorted k 1 (le_refl 1) hk, chain_enum, h0]
    rw [show ((List.range 0).map
        (fun j => (j, (⟨[j], [k - 1 + j], [], false⟩ : Feat (List Nat) Nat))) ++
        [(0, (⟨List.range' 0 (k - 1 + 1), [k - 1], [], false⟩ : Feat (List Nat) Nat))]) =
        [(0, (⟨List.range' 0 (k - 1 + 1), [k - 1], [], false⟩ : Feat (List Nat) Nat))]
        from rfl]
    simp only [processSmall]
    rw [hpo]
  simp only [passOnce]
  rw [hsmall]
  show Except.ok
      ((explodeGdf chainE (dissolveBy chainE (chainFeats k 1))).map
          (fun f => { f with changed := false }),
        (chainFeats k 1).length,
        ((explodeGdf chainE (dissolveBy chainE (chainFeats k 1))).map
          (fun f => { f with changed := false })).length) =
      Except.ok (chainFeats k 1, 1, 1)
  have hdis : dissolveBy chainE (chainFeats k 1) =
      [⟨List.range' 0 (k - 1 + 1), [k - 1], [], false⟩] := by
    rw [dissolveBy, hcf1]
    simp [dissolveAux, mkDis, keyOf, chainE]
  rw [hdis]
  rw [explodeGdf_id chainE _ (by
    intro f hf
    rw [List.mem_singleton] at hf
    rw [hf]
    exact splitRuns_range' 0 (k - 1 + 1) (by omega))]
  rw [map_changed_false_id _ (by
    intro f hf
    rw [List.mem_singleton] at hf
    rw [hf])]
  rw [← hcf1]
  rw [show (chainFeats k 1).length = 1 from by rw [chainFeats_length]]

theorem chain_loopAux (k : Nat) (hk : 1 ≤ k) :
    ∀ mm fuel lb la cnt, mm + 1 ≤ k → mm + 2 ≤ fuel → lb ≠ la →
      loopAux chainE none ((k + 1 : Nat) : Int) fuel (chainFeats k (mm + 1)) lb la cnt =
        Except.ok (chainFeats k 1, cnt + (mm + 1)) := by
  intro mm
  induction mm with
  | zero =>
    intro fuel lb la cnt hmk hfuel hne
    rw [Nat.zero_add]
    obtain ⟨f, rfl⟩ : ∃ f, fuel = f + 1 := ⟨fuel - 1, by omega⟩
    simp only [loopAux]
    have hg : 0 < (smallSorted chainE ((k + 1 : Nat) : Int) (chainFeats k 1)).length := by
      rw [chain_smallSorted k 1 (le_refl 1) hk, List.enum_length, chainFeats_length]
      omega
    rw [if_pos ⟨hg, hne⟩]
    rw [chain_passOnce_one k hk]
    show loopAux chainE none ((k + 1 : Nat) : Int) f (chainFeats k 1) 1 1 (cnt + 1) =
      Except.ok (chainFeats k 1, cnt + 1)
    rw [loopAux_guard_eq]
  | succ mm ih =>
    intro fuel lb la cnt hmk hfuel hne
    obtain ⟨f, rfl⟩ : ∃ f, fuel = f + 1 := ⟨fuel - 1, by omega⟩
    simp only [loopAux]
    have hg : 0 <
        (smallSorted chainE ((k + 1 : Nat) : Int) (chainFeats k (mm + 1 + 1))).length := by
      rw [chain_smallSorted k (mm + 1 + 1) (by omega) (by omega), List.enum_length,
        chainFeats_length]
      omega
    rw [if_pos ⟨hg, hne⟩]
    rw [chain_passOnce k (mm + 1 + 1) (by omega) (by omega)]
    have e1 : mm + 1 + 1 - 1 = mm + 1 := by omega
    rw [e1]
    show loopAux chainE none ((k + 1 : Nat) : Int) f (chainFeats k (mm + 1))
        (mm + 1 + 1) (mm + 1) (cnt + 1) =
      Except.ok (chainFeats k 1, cnt + (mm + 1 + 1))
    rw [ih f (mm + 1 + 1) (mm + 1) (cnt + 1) (by omega) (by omega) (by omega)]
    have e2 : cnt + 1 + (mm + 1) = cnt + (mm + 1 + 1) := by omega
    rw [e2]

theorem chain_initFrame (k : Nat) :
    initFrame chainE (chainGdf k) = chainFeats k k := by
  rw [initFrame]
  rw [show (chainGdf k).feats = chainFeats k k from rfl]
  rw [explodeGdf_id chainE _ (by
    intro f hf
    rw [chainFeats] at hf
    rcases List.mem_append.1 hf with h | h
    · rcases List.mem_map.1 h with ⟨j, hj, hjf⟩
      rw [← hjf]
      exact splitRuns_singleton j
    · rw [List.mem_singleton] at h
      rw [h]
      exact splitRuns_range' (k - 1) (k - k + 1) (by omega))]
  rw [map_changed_false_id _ (by
    intro f hf
    rw [chainFeats] at hf
    rcases List.mem_append.1 hf with h | h
    · rcases List.mem_map.1 h with ⟨j, hj, hjf⟩
      rw [← hjf]
    · rw [List.mem_singleton] at h
      rw [h])]

theorem simplifyPasses_of_loop (E : Engine G R) [DecidableEq V] (raster : Option (G → Int))
    (gdf : GDF G V) (lim : Int) (c : Nat) (g : List (Feat G V)) (cnt : Nat)
    (hcrs : gdf.crs = some c)
    (hloop : loopAux E raster lim ((initFrame E gdf).length + 2) (initFrame E gdf) 3 2 0 =
      .ok (g, cnt)) :
    simplifyPasses E raster gdf lim = cnt := by
  simp only [simplifyPasses, simplifyCore]
  rw [hcrs, hloop]

theorem chain_passes (k : Nat) (hk : 1 ≤ k) :
    simplifyPasses chainE none (chainGdf k) ((k + 1 : Nat) : Int) = k := by
  obtain ⟨kk, rfl⟩ : ∃ kk, k = kk + 1 := ⟨k - 1, by omega⟩
  refine simplifyPasses_of_loop chainE none (chainGdf (kk + 1)) _ 1
    (chainFeats (kk + 1) 1) (kk + 1) rfl ?_
  rw [chain_initFrame (kk + 1)]
  have hlen : (chainFeats (kk + 1) (kk + 1)).length + 2 = kk + 3 := by
    rw [chainFeats_length]
    omega
  rw [hlen]
  rw [chain_loopAux (kk + 1) (by omega) kk (kk + 3) 3 2 0 (by omega) (by omega) (by omega)]
  rw [Nat.zero_add]

/-- C2 (counterexample to the original wording): `simplify_shps` has no
input-independent ceiling on the number of convergence passes (and no
"did not fully converge" report): over the chain engine, the k-square chain
input `chainGdf k` with projected-area limit `k + 1` executes exactly `k`
convergence passes — each pass merges only the two rightmost features — so
for every proposed ceiling `N` the input with `k = N + 1` exceeds it. -/
theorem simplify_shps_pass_unbounded :
    ¬ ∃ N : Nat, ∀ k : Nat,
      simplifyPasses chainE none (chainGdf k) ((k + 1 : Nat) : Int) ≤ N := by
  rintro ⟨N, hN⟩
  have h := hN (N + 1)
  rw [chain_passes (N + 1) (by omega)] at h
  omega

end Gis
